import Mathlib

/-!
# Verification of the TypeScript LSP client and workspace layer

Shallow embedding of `src/lib/typescript-operations.ts` (classes
`TypeScriptLSPClient` and `TypeScriptWorkspaceManager`) together with the
`getWorkspaceClient` helper of `src/index.ts`.

Modelling conventions:
* JavaScript strings are modelled as `List Char` (one `Char` per UTF-16 code
  unit; all characters appearing in the development are in the basic
  multilingual plane, where the identification is exact) or as Lean `String`
  where only whole-string operations are used.
* `Buffer.byteLength` is modelled by `utf8LenL`, the UTF-8 byte count of a
  character list.
* `JSON.stringify` / `JSON.parse` are host functions; they are modelled by
  `serJson` / `parseJson` over the inductive `Json` type (JSON values with
  integer numerals), with the exact escaping rules JSON.stringify uses.
* The asynchronous behaviour of one client (promise continuations,
  `setTimeout` timers, subprocess exit) is modelled as a small-step system:
  `CState` is the client state, `Ev` the events that can occur, `step` the
  transition function, and `evOk`/`validFrom` the host-runtime constraints
  (timers fire at or after their delay, and each timer fires at most once).
  `settleLog` records promise settlements: a promise settles at most once,
  so a settlement is recorded only for an id that has none yet (`addSettle`).
-/

/-! ## Language id detection (`openDocument`, lines 336-344) -/

/-- JavaScript `s.endsWith(pat)`: the last characters of `s` are `pat`. -/
def strEndsWith (s pat : String) : Bool :=
  List.isPrefixOf pat.data.reverse s.data.reverse

/-- Model of the `languageId` computation in `openDocument`:
`let languageId = 'typescript'; if (endsWith('.js') || endsWith('.jsx')) ...`
translated branch for branch. -/
def languageIdOf (filePath : String) : String :=
  if strEndsWith filePath ".js" || strEndsWith filePath ".jsx" then "javascript"
  else if strEndsWith filePath ".tsx" then "typescriptreact"
  else if strEndsWith filePath ".jsx" then "javascriptreact"
  else "typescript"

/-! ## Workspace root extraction (`TypeScriptLSPClient` constructor, lines 130-134) -/

/-- Model of `workspaceRoot.split('#')[0]`: the characters before the first
`'#'` (the whole string when there is none). -/
def splitFirstHash : List Char → List Char
  | [] => []
  | c :: cs => if c = '#' then [] else c :: splitFirstHash cs

/-- Model of the constructor line
`this.workspaceRoot = workspaceRoot.includes('#') ? workspaceRoot.split('#')[0] : workspaceRoot`. -/
def effectiveRoot (key : List Char) : List Char :=
  if key.contains '#' then splitFirstHash key else key

/-! ## Decimal digits (used by `Content-Length` framing and `JSON.stringify` numbers) -/

/-- The decimal digit character for `k` (`k ≤ 9` in every use). -/
def digitCh : Nat → Char
  | 0 => '0' | 1 => '1' | 2 => '2' | 3 => '3' | 4 => '4'
  | 5 => '5' | 6 => '6' | 7 => '7' | 8 => '8' | _ => '9'

/-- Fuel-driven most-significant-first decimal expansion. -/
def natDigitsF : Nat → Nat → List Char
  | 0, _ => []
  | fuel + 1, n =>
    if n < 10 then [digitCh n]
    else natDigitsF fuel (n / 10) ++ [digitCh (n % 10)]

/-- Decimal digit string of `n`, as produced by JavaScript number-to-string
conversion for non-negative integers. -/
def natDigits (n : Nat) : List Char := natDigitsF (n + 1) n

/-- Numeric value of a digit string (`parseInt(s, 10)` on an all-digit string,
and the value accumulated by JSON number parsing). -/
def digitsVal (ds : List Char) : Nat :=
  ds.foldl (fun a c => a * 10 + (c.toNat - 48)) 0

/-! ## JSON values, `JSON.stringify` and `JSON.parse`

`Json` models the JSON-serializable payloads exchanged on the wire (numbers
restricted to integers; JavaScript floats are outside the model). `serJson`
follows `JSON.stringify` exactly: no whitespace, object keys in insertion
order, strings escaped with the two-character escapes for `"` `\` and the
control characters 8, 9, 10, 12, 13, lowercase `\u00xx` escapes for the other
control characters, and every other character (ASCII or not) passed through
unescaped. `parseJson` models `JSON.parse` on the grammar fragment
`serJson` produces. -/

inductive Json where
  | null : Json
  | bool (b : Bool) : Json
  | num (i : Int) : Json
  | str (s : String) : Json
  | arr (elems : List Json) : Json
  | obj (members : List (String × Json)) : Json
deriving Repr

/-- Lowercase hexadecimal digit for `k < 16`. -/
def hexCh : Nat → Char
  | 0 => '0' | 1 => '1' | 2 => '2' | 3 => '3' | 4 => '4'
  | 5 => '5' | 6 => '6' | 7 => '7' | 8 => '8' | 9 => '9'
  | 10 => 'a' | 11 => 'b' | 12 => 'c' | 13 => 'd' | 14 => 'e' | _ => 'f'

/-- `JSON.stringify` escaping of one string character. -/
def escChar (c : Char) : List Char :=
  if c = '"' then ['\\', '"']
  else if c = '\\' then ['\\', '\\']
  else if c.toNat = 8 then ['\\', 'b']
  else if c.toNat = 9 then ['\\', 't']
  else if c.toNat = 10 then ['\\', 'n']
  else if c.toNat = 12 then ['\\', 'f']
  else if c.toNat = 13 then ['\\', 'r']
  else if c.toNat < 32 then ['\\', 'u', '0', '0', hexCh (c.toNat / 16), hexCh (c.toNat % 16)]
  else [c]

def escList : List Char → List Char
  | [] => []
  | c :: cs => escChar c ++ escList cs

/-- Serialized JSON string literal (quotes plus escaped body). -/
def serStr (cs : List Char) : List Char :=
  '"' :: (escList cs ++ ['"'])

/-- Serialized JSON integer numeral. -/
def serInt (i : Int) : List Char :=
  if i < 0 then '-' :: natDigits i.natAbs else natDigits i.toNat

mutual

def serJson : Json → List Char
  | .null => 'n' :: 'u' :: 'l' :: 'l' :: []
  | .bool true => 't' :: 'r' :: 'u' :: 'e' :: []
  | .bool false => 'f' :: 'a' :: 'l' :: 's' :: 'e' :: []
  | .num i => serInt i
  | .str s => serStr s.data
  | .arr [] => '[' :: ']' :: []
  | .arr (v :: vs) => '[' :: (serJson v ++ serArrTail vs)
  | .obj [] => '{' :: '}' :: []
  | .obj (m :: ms) => '{' :: (serMember m ++ serObjTail ms)

def serArrTail : List Json → List Char
  | [] => [']']
  | v :: vs => ',' :: (serJson v ++ serArrTail vs)

def serMember : String × Json → List Char
  | (k, v) => serStr k.data ++ (':' :: serJson v)

def serObjTail : List (String × Json) → List Char
  | [] => ['}']
  | m :: ms => ',' :: (serMember m ++ serObjTail ms)

end

/-- Hexadecimal value of a character, if it is a hex digit. -/
def hexVal (c : Char) : Option Nat :=
  if c.isDigit then some (c.toNat - 48)
  else if 97 ≤ c.toNat && c.toNat ≤ 102 then some (c.toNat - 87)
  else if 65 ≤ c.toNat && c.toNat ≤ 70 then some (c.toNat - 55)
  else none

/-- Body of a JSON string literal after the opening quote: consumes up to and
including the closing quote, decoding escapes. Fuel-driven; every step
consumes at least one input character, so fuel `length + 1` always suffices. -/
def parseStringBody : Nat → List Char → Option (List Char × List Char)
  | 0, _ => none
  | _ + 1, [] => none
  | fuel + 1, c :: rest =>
    if c = '"' then some ([], rest)
    else if c = '\\' then
      match rest with
      | [] => none
      | e :: r =>
        if e = '"' then (parseStringBody fuel r).map (fun p => ('"' :: p.1, p.2))
        else if e = '\\' then (parseStringBody fuel r).map (fun p => ('\\' :: p.1, p.2))
        else if e = '/' then (parseStringBody fuel r).map (fun p => ('/' :: p.1, p.2))
        else if e = 'b' then (parseStringBody fuel r).map (fun p => (Char.ofNat 8 :: p.1, p.2))
        else if e = 't' then (parseStringBody fuel r).map (fun p => (Char.ofNat 9 :: p.1, p.2))
        else if e = 'n' then (parseStringBody fuel r).map (fun p => (Char.ofNat 10 :: p.1, p.2))
        else if e = 'f' then (parseStringBody fuel r).map (fun p => (Char.ofNat 12 :: p.1, p.2))
        else if e = 'r' then (parseStringBody fuel r).map (fun p => (Char.ofNat 13 :: p.1, p.2))
        else if e = 'u' then
          match r with
          | h1 :: h2 :: h3 :: h4 :: r2 =>
            match hexVal h1, hexVal h2, hexVal h3, hexVal h4 with
            | some a, some b, some c2, some d =>
              (parseStringBody fuel r2).map
                (fun p => (Char.ofNat (((a * 16 + b) * 16 + c2) * 16 + d) :: p.1, p.2))
            | _, _, _, _ => none
          | _ => none
        else none
    else (parseStringBody fuel rest).map (fun p => (c :: p.1, p.2))

mutual

/-- JSON value at the head of the input (on the fragment of the JSON grammar
`serJson` emits: integer numerals, no interior whitespace). -/
def parseValue : Nat → List Char → Option (Json × List Char)
  | 0, _ => none
  | fuel + 1, input =>
    match input with
    | [] => none
    | 'n' :: 'u' :: 'l' :: 'l' :: rest => some (.null, rest)
    | 't' :: 'r' :: 'u' :: 'e' :: rest => some (.bool true, rest)
    | 'f' :: 'a' :: 'l' :: 's' :: 'e' :: rest => some (.bool false, rest)
    | '"' :: rest =>
      (parseStringBody (rest.length + 1) rest).map (fun p => (.str (String.mk p.1), p.2))
    | '[' :: ']' :: rest => some (.arr [], rest)
    | '[' :: rest => (parseElems fuel rest).map (fun p => (.arr p.1, p.2))
    | '{' :: '}' :: rest => some (.obj [], rest)
    | '{' :: rest => (parseMembers fuel rest).map (fun p => (.obj p.1, p.2))
    | '-' :: rest =>
      let ds := rest.takeWhile Char.isDigit
      if ds.isEmpty then none
      else some (.num (-(digitsVal ds : Int)), rest.drop ds.length)
    | c :: rest =>
      if c.isDigit then
        let ds := (c :: rest).takeWhile Char.isDigit
        some (.num (digitsVal ds : Int), (c :: rest).drop ds.length)
      else none

/-- Comma-separated array elements after `[`, up to and including `]`. -/
def parseElems : Nat → List Char → Option (List Json × List Char)
  | 0, _ => none
  | fuel + 1, input =>
    match parseValue fuel input with
    | none => none
    | some (v, r) =>
      match r with
      | ',' :: r2 => (parseElems fuel r2).map (fun p => (v :: p.1, p.2))
      | ']' :: r2 => some ([v], r2)
      | _ => none

/-- Comma-separated object members after `{`, up to and including the brace. -/
def parseMembers : Nat → List Char → Option (List (String × Json) × List Char)
  | 0, _ => none
  | fuel + 1, input =>
    match input with
    | '"' :: rest =>
      match parseStringBody (rest.length + 1) rest with
      | none => none
      | some (k, r) =>
        match r with
        | ':' :: r2 =>
          match parseValue fuel r2 with
          | none => none
          | some (v, r3) =>
            match r3 with
            | ',' :: r4 => (parseMembers fuel r4).map (fun p => ((String.mk k, v) :: p.1, p.2))
            | c :: r4 =>
              if c = '}' then some ([(String.mk k, v)], r4) else none
            | [] => none
        | _ => none
    | _ => none

end

/-- Model of `JSON.parse`: the whole input must be one JSON value. -/
def parseJson (s : List Char) : Option Json :=
  match parseValue (s.length + 1) s with
  | some (v, []) => some v
  | _ => none

/-! ## Wire framing (`sendMessage`, lines 451-459, and `processBuffer`, lines 404-431)

`sendMessage` writes `Content-Length: ${Buffer.byteLength(str)}\r\n\r\n${str}`.
`processBuffer` repeatedly matches `/Content-Length: (\d+)\r\n\r\n/` against
the buffer (a JavaScript string), takes `headerMatch[0].length` as the header
length, waits until `buffer.length ≥ header + N`, slices the payload out,
and hands `JSON.parse` of it to `handleMessage` — silently dropping payloads
that fail to parse. Note that the buffer is measured in UTF-16 code units
while `Content-Length` counts UTF-8 bytes. -/

/-- UTF-8 byte width of one character (model of `Buffer.byteLength` per
code point). -/
def utf8W (c : Char) : Nat :=
  if c.toNat < 128 then 1
  else if c.toNat < 2048 then 2
  else if c.toNat < 65536 then 3
  else 4

/-- UTF-8 byte length of a character list (`Buffer.byteLength`). -/
def utf8LenL (s : List Char) : Nat := (s.map utf8W).sum

/-- The literal `"Content-Length: "` (16 characters). -/
def clPrefix : List Char := "Content-Length: ".data

/-- The literal `"\r\n\r\n"`. -/
def crlf2 : List Char := '\r' :: '\n' :: '\r' :: '\n' :: []

/-- The bytes `sendMessage` writes for payload `v`:
header with the UTF-8 byte length of `JSON.stringify(v)`, then the JSON. -/
def frameMessage (v : Json) : List Char :=
  clPrefix ++ natDigits (utf8LenL (serJson v)) ++ crlf2 ++ serJson v

/-- Boolean list-prefix test. -/
def lcStartsWith : List Char → List Char → Bool
  | [], _ => true
  | _ :: _, [] => false
  | p :: ps, c :: cs => p == c && lcStartsWith ps cs

/-- Regex `Content-Length: (\d+)\r\n\r\n` anchored at the start of `buf`:
on success, the length of the whole match and the parsed digit group. -/
def matchHeaderAt (buf : List Char) : Option (Nat × Nat) :=
  if lcStartsWith clPrefix buf then
    let after := buf.drop clPrefix.length
    let ds := after.takeWhile Char.isDigit
    if ds.isEmpty then none
    else if lcStartsWith crlf2 (after.drop ds.length) then
      some (clPrefix.length + ds.length + crlf2.length, digitsVal ds)
    else none
  else none

/-- Leftmost match of the header regex anywhere in the buffer, as
`buffer.match(...)` finds it. The code uses only `headerMatch[0].length`
and the digit group, so only those are returned. -/
def findHeader : List Char → Option (Nat × Nat)
  | [] => none
  | c :: rest =>
    match matchHeaderAt (c :: rest) with
    | some r => some r
    | none => findHeader rest

/-- Framer state: the unparsed buffer plus the messages successfully parsed
and handed to `handleMessage`, in emission order. -/
structure FrameState where
  buffer : List Char
  parsed : List Json
deriving Repr

/-- One run of the `while (true)` loop of `processBuffer`. The fuel only
bounds the iteration count; each iteration consumes at least 21 buffer
characters, so fuel `buffer.length` always suffices. -/
def processBufferAux : Nat → FrameState → FrameState
  | 0, st => st
  | fuel + 1, st =>
    match findHeader st.buffer with
    | none => st
    | some (hlen, clen) =>
      if st.buffer.length < hlen + clen then st
      else
        let msg := (st.buffer.drop hlen).take clen
        let rest := st.buffer.drop (hlen + clen)
        let parsed2 :=
          match parseJson msg with
          | some v => st.parsed ++ [v]
          | none => st.parsed
        processBufferAux fuel { buffer := rest, parsed := parsed2 }

/-- `processBuffer`. -/
def processBuffer (st : FrameState) : FrameState :=
  processBufferAux st.buffer.length st

/-- The stdout `data` handler: `this.buffer += data.toString(); this.processBuffer()`. -/
def feedChunk (st : FrameState) (chunk : List Char) : FrameState :=
  processBuffer { st with buffer := st.buffer ++ chunk }

/-- Feeding a sequence of chunks. -/
def runFeed (st : FrameState) (chunks : List (List Char)) : FrameState :=
  chunks.foldl feedChunk st

def initFS : FrameState := { buffer := [], parsed := [] }

/-- All characters of the serialized payload are ASCII; under this condition
UTF-16 code-unit length and UTF-8 byte length agree. -/
def serAllAscii (v : Json) : Bool :=
  (serJson v).all (fun c => c.toNat < 128)

/-! ## One client: request correlation, timers, cleanup
(`sendRequest` 461-482, `handleMessage` 433-449, `cleanup` 500-528,
`shutdown` 530-540, `initialize` 136-319, document tracking 321-402) -/

/-- Terminal outcome delivered to a request's promise. -/
inductive Outcome where
  | result : Outcome
  | protocolError : Outcome
  | timeoutError : Outcome
  | sendFailure : Outcome
deriving Repr, DecidableEq

/-- Notifications written by the client (only the fields the claims need). -/
inductive Notif where
  | didOpen (uri languageId : String) (version : Nat) (text : String) : Notif
  | didClose (uri : String) : Notif
  | methodOnly (method : String) : Notif
deriving Repr, DecidableEq

/-- State of one `TypeScriptLSPClient`.
`pending` is the key set of `pendingRequests`; `createdAt` archives the send
time of every request whose 10-second timer was scheduled; `settleLog`
records promise settlements `(id, time, outcome)` (newest first);
`firedTimeouts` records which single-shot timers have already run;
`sentIds` lists assigned request ids in send order;
`procAlive` is `process !== null`; `killedProc` records that `kill()` ran. -/
structure CState where
  workspaceRoot : List Char
  requestId : Nat
  pending : List Nat
  createdAt : List (Nat × Nat)
  settleLog : List (Nat × Nat × Outcome)
  firedTimeouts : List Nat
  sentIds : List Nat
  now : Nat
  initialized : Bool
  procAlive : Bool
  killedProc : Bool
  openDocs : List String
  notifLog : List Notif
deriving Repr

/-- `new TypeScriptLSPClient(key)` (constructor, lines 130-134). -/
def mkClient (key : List Char) : CState :=
  { workspaceRoot := effectiveRoot key
    requestId := 0, pending := [], createdAt := [], settleLog := []
    firedTimeouts := [], sentIds := [], now := 0
    initialized := false, procAlive := false, killedProc := false
    openDocs := [], notifLog := [] }

/-- A promise settles at most once: record an outcome for `i` only if `i`
has no recorded outcome yet (later `resolve`/`reject` calls are ignored by
the promise). -/
def addSettle (i t : Nat) (o : Outcome) (log : List (Nat × Nat × Outcome)) :
    List (Nat × Nat × Outcome) :=
  if log.any (fun e => e.1 = i) then log else (i, t, o) :: log

/-- Events affecting the request subsystem of one client. -/
inductive Ev where
  | send (t : Nat) : Ev
  | response (t : Nat) (id : Nat) (isErr : Bool) : Ev
  | timeoutFire (t : Nat) (id : Nat) : Ev
  | cleanup (t : Nat) : Ev
deriving Repr, DecidableEq

/-- Transition function.
`send`: `const id = ++this.requestId; pendingRequests.set(id, ...); sendMessage(...)`;
when the process is gone `sendMessage` throws inside the promise executor,
which rejects that promise at once and schedules no timer.
`response`: `handleMessage` on a response — settle and delete if the id is
pending, otherwise nothing.
`timeoutFire`: the 10-second `setTimeout` callback — reject and delete if the
id is still pending, otherwise nothing.
`cleanup`: `initialized = false; pendingRequests.clear()` (no rejection!),
close notifications for open documents, `openDocuments.clear()`,
`process.kill(); process = null`. -/
def step (s : CState) (e : Ev) : CState :=
  match e with
  | .send t =>
    let id := s.requestId + 1
    if s.procAlive then
      { s with requestId := id, pending := id :: s.pending,
               createdAt := (id, t) :: s.createdAt,
               sentIds := s.sentIds ++ [id], now := t }
    else
      { s with requestId := id, pending := id :: s.pending,
               settleLog := addSettle id t .sendFailure s.settleLog,
               sentIds := s.sentIds ++ [id], now := t }
  | .response t i isErr =>
    if i ∈ s.pending then
      { s with pending := s.pending.erase i,
               settleLog := addSettle i t (if isErr then .protocolError else .result) s.settleLog,
               now := t }
    else { s with now := t }
  | .timeoutFire t i =>
    if i ∈ s.pending then
      { s with pending := s.pending.erase i,
               settleLog := addSettle i t .timeoutError s.settleLog,
               firedTimeouts := i :: s.firedTimeouts, now := t }
    else { s with firedTimeouts := i :: s.firedTimeouts, now := t }
  | .cleanup t =>
    { s with initialized := false, pending := [],
             notifLog := s.openDocs.map Notif.didClose ++ s.notifLog,
             openDocs := [], procAlive := false,
             killedProc := s.killedProc || s.procAlive, now := t }

def lookupNat (i : Nat) : List (Nat × Nat) → Option Nat
  | [] => none
  | (j, t) :: rest => if j = i then some t else lookupNat i rest

/-- Host-runtime admissibility of an event: time never goes backwards, and a
request timer fires only once and only at or after 10000 ms past the send
that scheduled it (`setTimeout` semantics). -/
def evOk (s : CState) : Ev → Bool
  | .send t => s.now ≤ t
  | .response t _ _ => s.now ≤ t
  | .cleanup t => s.now ≤ t
  | .timeoutFire t i =>
    s.now ≤ t &&
    (match lookupNat i s.createdAt with
     | some t0 => t0 + 10000 ≤ t
     | none => false) &&
    !(s.firedTimeouts.contains i)

/-- Admissible traces from a state. -/
def validFrom (s : CState) : List Ev → Bool
  | [] => true
  | e :: es => evOk s e && validFrom (step s e) es

/-- Running a trace. -/
def runFrom (s : CState) (es : List Ev) : CState := es.foldl step s

/-- Number of settlements recorded for id `i`. -/
def countSettles (i : Nat) (log : List (Nat × Nat × Outcome)) : Nat :=
  (log.filter (fun e => e.1 = i)).length

/-- Settlements recorded for id `i`, newest first. -/
def settlesFor (i : Nat) (log : List (Nat × Nat × Outcome)) :
    List (Nat × Nat × Outcome) :=
  log.filter (fun e => e.1 = i)

/-- Successful `initialize()` (lines 136-319): spawn the subprocess, send the
`initialize` request through `sendRequest` and receive its response, send the
`initialized` notification, set the flag. A second call returns at once. -/
def initializeC (s : CState) (t : Nat) : CState :=
  if s.initialized then s
  else
    let s1 := { s with procAlive := true }
    let s2 := step s1 (.send t)
    let s3 := step s2 (.response t s2.requestId false)
    { s3 with initialized := true,
              notifLog := Notif.methodOnly "initialized" :: s3.notifLog }

/-- `cleanup()` as a state transformer (lines 500-528). -/
def cleanupC (s : CState) (t : Nat) : CState := step s (.cleanup t)

/-- `shutdown()` (lines 530-540): when initialized, send the `shutdown`
request (settled by a response when `respOk`, otherwise by its own timer),
send the `exit` notification, then always run `cleanup`. -/
def shutdownC (s : CState) (respOk : Bool) (t : Nat) : CState :=
  if s.initialized then
    let s1 := step s (.send t)
    let s2 :=
      if respOk then step s1 (.response t s1.requestId false)
      else step s1 (.timeoutFire (t + 10000) s1.requestId)
    cleanupC { s2 with notifLog := Notif.methodOnly "exit" :: s2.notifLog } t
  else cleanupC s t

/-! ## Document tracking (`openDocument` 321-360, `ensureDocumentOpen` 379-402) -/

/-- Result of `readFile(path, 'utf-8')`. -/
inductive FsResult where
  | content (text : String) : FsResult
  | enoent : FsResult
  | otherError : FsResult
deriving Repr, DecidableEq

/-- Errors thrown by the document operations. `readEnoent` is the only one
whose message contains the substring `ENOENT`. -/
inductive DocErr where
  | notInitialized : DocErr
  | notRunning : DocErr
  | readEnoent : DocErr
  | readOther : DocErr
deriving Repr, DecidableEq

/-- `openDocument(filePath)`: require initialization, no-op when the uri is
already open, read the file, send `textDocument/didOpen` with the detected
language id, version 1 and the content, and track the uri. Read failures are
wrapped and rethrown. -/
def openDocumentM (fs : String → FsResult) (s : CState) (filePath : String) :
    Except DocErr CState :=
  if !s.initialized then .error .notInitialized
  else
    let uri := "file://" ++ filePath
    if uri ∈ s.openDocs then .ok s
    else
      match fs filePath with
      | .content text =>
        if s.procAlive then
          .ok { s with
                notifLog := Notif.didOpen uri (languageIdOf filePath) 1 text :: s.notifLog,
                openDocs := uri :: s.openDocs }
        else .error .notRunning
      | .enoent => .error .readEnoent
      | .otherError => .error .readOther

/-- `ensureDocumentOpen(filePath)`: no-op when tracked; otherwise call
`openDocument`, and if it failed with a message containing `ENOENT`, open a
placeholder document `// File not found\n` with language id `typescript`
instead; any other error propagates. -/
def ensureDocumentOpenM (fs : String → FsResult) (s : CState) (filePath : String) :
    Except DocErr CState :=
  let uri := "file://" ++ filePath
  if uri ∈ s.openDocs then .ok s
  else
    match openDocumentM fs s filePath with
    | .ok s2 => .ok s2
    | .error e =>
      if e = .readEnoent then
        if s.procAlive then
          .ok { s with
                notifLog := Notif.didOpen uri "typescript" 1 "// File not found\n" :: s.notifLog,
                openDocs := uri :: s.openDocs }
        else .error .notRunning
      else .error e

/-- Number of `didOpen` notifications recorded for `uri`. -/
def countOpens (uri : String) (log : List Notif) : Nat :=
  (log.filter (fun n =>
    match n with
    | .didOpen u _ _ _ => u = uri
    | _ => false)).length

/-! ## Workspace manager (`TypeScriptWorkspaceManager`, lines 544-571) -/

/-- Manager state: the `workspaces` map (association list, most recent first)
from key to client identity, plus the heap of all client objects ever
allocated, identified by allocation order (`nextId`). -/
structure MState where
  nextId : Nat
  workspaces : List (String × Nat)
  clients : List (Nat × CState)
deriving Repr

def lookupStr (k : String) : List (String × Nat) → Option Nat
  | [] => none
  | (k2, v) :: rest => if k2 = k then some v else lookupStr k rest

def emptyM : MState := { nextId := 0, workspaces := [], clients := [] }

/-- `getOrCreateWorkspace(path)` (lines 547-557): return the registered
client when present; otherwise allocate a new client, run `initialize()`
(outcome given by the oracle `initOk`), and register the key only when
initialization succeeded; a failure propagates as `Except.error`. -/
def getOrCreateWorkspaceM (m : MState) (path : String) (initOk : Bool) (t : Nat) :
    MState × Except Unit Nat :=
  match lookupStr path m.workspaces with
  | some cid => (m, .ok cid)
  | none =>
    let cid := m.nextId
    let fresh := mkClient path.data
    if initOk then
      ({ nextId := cid + 1,
         workspaces := (path, cid) :: m.workspaces,
         clients := (cid, initializeC fresh t) :: m.clients }, .ok cid)
    else
      ({ nextId := cid + 1,
         workspaces := m.workspaces,
         clients := (cid, fresh) :: m.clients }, .error ())

/-- `closeAll()` (lines 567-571): `shutdown()` every registered client, then
clear the map. `respOk` tells, per client, whether its graceful `shutdown`
request got a response before the timer. -/
def closeAllM (m : MState) (respOk : Nat → Bool) (t : Nat) : MState :=
  { m with
    workspaces := [],
    clients := m.clients.map (fun p =>
      if m.workspaces.any (fun w => w.2 = p.1)
      then (p.1, shutdownC p.2 (respOk p.1) t)
      else p) }

/-- `getWorkspaceClient` in `src/index.ts` (lines 59-63) suffixes the key. -/
def isolatedKey (workspaceRoot : List Char) : List Char :=
  workspaceRoot ++ "#typescript-lsp".data

/-! ## Fuel measures for the parser round trip -/

mutual

/-- Recursion depth `parseValue` needs to parse `serJson v`. -/
def jfuel : Json → Nat
  | .null => 1
  | .bool _ => 1
  | .num _ => 1
  | .str _ => 1
  | .arr vs => 1 + efuelList vs
  | .obj ms => 1 + mfuelList ms
termination_by v => sizeOf v

/-- Recursion depth `parseElems` needs for the elements after the first
bracket, one unit per element plus the element values' own needs. -/
def efuelList : List Json → Nat
  | [] => 0
  | v :: vs => 1 + jfuel v + efuelList vs
termination_by l => sizeOf l

/-- Recursion depth `parseMembers` needs for the members after the first
brace. -/
def mfuelList : List (String × Json) → Nat
  | [] => 0
  | (_, v) :: ns => 1 + jfuel v + mfuelList ns
termination_by l => sizeOf l

end

/-- The continuation after a serialized number must not begin with a digit
(inside serialized JSON it is always `,`, `]`, `}` or the end). -/
def noDigitHead : List Char → Prop
  | [] => True
  | c :: _ => c.isDigit = false

instance : DecidablePred noDigitHead := fun l =>
  match l with
  | [] => inferInstanceAs (Decidable True)
  | _ :: _ => inferInstanceAs (Decidable (_ = false))

/-- Ids never exceed the counter, pending ids never exceed the counter, and
the assigned-id list is strictly increasing. -/
def InvIds (s : CState) : Prop :=
  List.Chain' (· < ·) s.sentIds ∧
  (∀ i ∈ s.sentIds, i ≤ s.requestId) ∧
  (∀ i ∈ s.pending, i ≤ s.requestId)

/-- Basic sanity of the request registry: pending ids are distinct and below
the counter, logged and archived ids are below the counter, and a pending id
whose timer was scheduled has not settled yet. -/
def ReqInv (s : CState) : Prop :=
  s.pending.Nodup ∧
  (∀ i ∈ s.pending, i ≤ s.requestId) ∧
  (∀ e ∈ s.settleLog, e.1 ≤ s.requestId) ∧
  (∀ p ∈ s.createdAt, p.1 ≤ s.requestId) ∧
  (∀ i ∈ s.pending, (∃ t0, (i, t0) ∈ s.createdAt) →
    countSettles i s.settleLog = 0)

/-- Id `i` is finished: at or below the counter, absent from the pending map,
and its settlement record is frozen at `L` — no later event can touch it. -/
def FrozenId (i : Nat) (L : List (Nat × Nat × Outcome)) (s : CState) : Prop :=
  i ≤ s.requestId ∧ i ∉ s.pending ∧ settlesFor i s.settleLog = L

/-- The framer state reached after receiving a given prefix of a framed
message: nothing is emitted until the whole frame is present. -/
def frameStage (v : Json) (q : List Char) : FrameState :=
  if q = frameMessage v then { buffer := [], parsed := [v] }
  else { buffer := q, parsed := [] }

/-! # Theorems -/

/-! ## C3: language id detection -/

/-- C3: the claim says files ending in `.jsx` get language id
`javascriptreact`. The code checks `endsWith('.jsx')` inside the first
condition, so every `.jsx` file gets `javascript` and the
`javascriptreact` branch is unreachable: no input whatsoever produces
`javascriptreact`. The other three categories behave as claimed. -/
theorem c3_languageId_jsx_misclassified :
    languageIdOf "component.jsx" = "javascript" ∧
    (∀ p : String, languageIdOf p ≠ "javascriptreact") ∧
    languageIdOf "a.js" = "javascript" ∧
    languageIdOf "b.tsx" = "typescriptreact" ∧
    languageIdOf "c.ts" = "typescript" ∧
    languageIdOf "d.mjs" = "typescript" := by
  refine ⟨by decide, ?_, by decide, by decide, by decide, by decide⟩
  intro p
  unfold languageIdOf
  split_ifs with h1 h2 h3
  · decide
  · decide
  · exact absurd (Bool.or_eq_true _ _ |>.mpr (Or.inr h3)) h1
  · decide

/-! ## C10: workspace-root truncation at the first hash -/

theorem splitFirstHash_of_not_mem : ∀ p : List Char, '#' ∉ p → splitFirstHash p = p
  | [], _ => rfl
  | c :: cs, h => by
    have hc : ¬ c = '#' := fun hc => h (hc ▸ List.mem_cons_self c cs)
    simp only [splitFirstHash, if_neg (fun hh => hc hh)]
    rw [splitFirstHash_of_not_mem cs (fun hm => h (List.mem_cons_of_mem c hm))]

theorem splitFirstHash_not_mem : ∀ p : List Char, '#' ∉ splitFirstHash p
  | [] => by simp [splitFirstHash]
  | c :: cs => by
    by_cases hc : c = '#'
    · simp [splitFirstHash, hc]
    · simp only [splitFirstHash, if_neg hc, List.mem_cons]
      rintro (h | h)
      · exact hc h.symm
      · exact splitFirstHash_not_mem cs h

theorem splitFirstHash_decomp : ∀ p : List Char, '#' ∈ p →
    ∃ rest, p = splitFirstHash p ++ '#' :: rest
  | [], h => absurd h (List.not_mem_nil _)
  | c :: cs, h => by
    by_cases hc : c = '#'
    · exact ⟨cs, by simp [splitFirstHash, hc]⟩
    · have hm : '#' ∈ cs := by
        rcases List.mem_cons.mp h with h1 | h1
        · exact absurd h1.symm hc
        · exact h1
      obtain ⟨rest, hrest⟩ := splitFirstHash_decomp cs hm
      exact ⟨rest, by simp only [splitFirstHash, if_neg hc, List.cons_append]
                      exact congrArg (c :: ·) hrest⟩

theorem splitFirstHash_append_left : ∀ a b : List Char, '#' ∈ a →
    splitFirstHash (a ++ b) = splitFirstHash a
  | [], _, h => absurd h (List.not_mem_nil _)
  | c :: cs, b, h => by
    by_cases hc : c = '#'
    · simp [splitFirstHash, hc]
    · have hm : '#' ∈ cs := by
        rcases List.mem_cons.mp h with h1 | h1
        · exact absurd h1.symm hc
        · exact h1
      simp only [List.cons_append, splitFirstHash, if_neg hc, List.append_eq]
      rw [splitFirstHash_append_left cs b hm]

theorem splitFirstHash_append_hash (a b : List Char) (h : '#' ∉ a) :
    splitFirstHash (a ++ '#' :: b) = a := by
  induction a with
  | nil => simp [splitFirstHash]
  | cons c cs ih =>
    have hc : ¬ c = '#' := fun hc => h (hc ▸ List.mem_cons_self c cs)
    simp only [List.cons_append, splitFirstHash, if_neg hc, List.append_eq]
    rw [ih (fun hm => h (List.mem_cons_of_mem c hm))]

/-- C10: the constructor derives the effective workspace root by truncating
the key at its first `'#'`: (i) the constructor stores exactly
`effectiveRoot key`; (ii) a key containing `'#'` is properly truncated to its
hash-free prefix; (iii) the same root under any two isolation tags yields the
same effective root; (iv) a hash-free key is kept unchanged, so in particular
the key built by `getWorkspaceClient` maps back to the original root. -/
theorem c10_constructor_truncates_at_hash :
    (∀ key : List Char, (mkClient key).workspaceRoot = effectiveRoot key) ∧
    (∀ p : List Char, '#' ∈ p →
      ('#' ∉ effectiveRoot p ∧ effectiveRoot p ≠ p ∧
       ∃ rest, p = effectiveRoot p ++ '#' :: rest)) ∧
    (∀ root tag1 tag2 : List Char,
      effectiveRoot (root ++ '#' :: tag1) = effectiveRoot (root ++ '#' :: tag2)) ∧
    (∀ p : List Char, '#' ∉ p → effectiveRoot p = p) ∧
    (∀ root : List Char, '#' ∉ root → effectiveRoot (isolatedKey root) = root) := by
  have her : ∀ p : List Char, '#' ∈ p → effectiveRoot p = splitFirstHash p := by
    intro p hp
    unfold effectiveRoot
    rw [if_pos (List.elem_iff.mpr hp)]
  have herno : ∀ p : List Char, '#' ∉ p → effectiveRoot p = p := by
    intro p hp
    unfold effectiveRoot
    by_cases hc : p.contains '#' = true
    · exact absurd (List.elem_iff.mp hc) hp
    · rw [if_neg hc]
  refine ⟨fun key => rfl, ?_, ?_, herno, ?_⟩
  · intro p hp
    rw [her p hp]
    refine ⟨splitFirstHash_not_mem p, ?_, splitFirstHash_decomp p hp⟩
    intro heq
    exact splitFirstHash_not_mem p (by rw [heq]; exact hp)
  · intro root tag1 tag2
    have h1 : '#' ∈ root ++ '#' :: tag1 := List.mem_append_right _ (List.mem_cons_self _ _)
    have h2 : '#' ∈ root ++ '#' :: tag2 := List.mem_append_right _ (List.mem_cons_self _ _)
    rw [her _ h1, her _ h2]
    by_cases hr : '#' ∈ root
    · rw [splitFirstHash_append_left root _ hr, splitFirstHash_append_left root _ hr]
    · rw [splitFirstHash_append_hash root tag1 hr, splitFirstHash_append_hash root tag2 hr]
  · intro root hroot
    unfold isolatedKey
    have : "#typescript-lsp".data = '#' :: "typescript-lsp".data := by decide
    rw [this, her _ (List.mem_append_right _ (List.mem_cons_self _ _)),
        splitFirstHash_append_hash root _ hroot]

/-- Witness for C10 at concrete keys: `"/a#b"` truncates to `"/a"`, and the
isolation-tagged key of `"/w"` maps back to `"/w"`. -/
theorem c10_constructor_truncates_at_hash_witness :
    ('#' ∈ "/a#b".data ∧ effectiveRoot "/a#b".data ≠ "/a#b".data) ∧
    ('#' ∉ "/w".data ∧ effectiveRoot (isolatedKey "/w".data) = "/w".data) :=
  ⟨⟨by decide, (c10_constructor_truncates_at_hash.2.1 "/a#b".data (by decide)).2.1⟩,
   ⟨by decide, c10_constructor_truncates_at_hash.2.2.2.2 "/w".data (by decide)⟩⟩

/-! ## Step-shape lemmas for the client model -/

theorem step_send_sentIds (s : CState) (t : Nat) :
    (step s (.send t)).sentIds = s.sentIds ++ [s.requestId + 1] := by
  simp only [step]; split <;> rfl

theorem step_send_requestId (s : CState) (t : Nat) :
    (step s (.send t)).requestId = s.requestId + 1 := by
  simp only [step]; split <;> rfl

theorem step_send_pending (s : CState) (t : Nat) :
    (step s (.send t)).pending = (s.requestId + 1) :: s.pending := by
  simp only [step]; split <;> rfl

theorem step_requestId_mono (s : CState) (e : Ev) :
    s.requestId ≤ (step s e).requestId := by
  cases e <;> simp only [step] <;> first
  | (split <;> simp)
  | simp

theorem step_sentIds_keep (s : CState) (e : Ev)
    (h : ∀ t, e ≠ Ev.send t) : (step s e).sentIds = s.sentIds := by
  cases e with
  | send t => exact absurd rfl (h t)
  | response t i b => simp only [step]; split <;> rfl
  | timeoutFire t i => simp only [step]; split <;> rfl
  | cleanup t => rfl

/-! ## C5: request id uniqueness and monotonicity -/

theorem invIds_step (s : CState) (e : Ev) (h : InvIds s) : InvIds (step s e) := by
  obtain ⟨hchain, hsent, hpend⟩ := h
  cases e with
  | send t =>
    refine ⟨?_, ?_, ?_⟩
    · rw [step_send_sentIds]
      rw [List.chain'_append]
      refine ⟨hchain, List.chain'_singleton _, ?_⟩
      intro x hx y hy
      simp only [List.head?_cons, Option.mem_def, Option.some.injEq] at hy
      subst hy
      have := hsent x (List.mem_of_mem_getLast? hx)
      omega
    · rw [step_send_sentIds, step_send_requestId]
      intro i hi
      rcases List.mem_append.mp hi with h1 | h1
      · exact le_trans (hsent i h1) (Nat.le_succ _)
      · simp only [List.mem_singleton] at h1; omega
    · rw [step_send_pending, step_send_requestId]
      intro i hi
      rcases List.mem_cons.mp hi with h1 | h1
      · omega
      · exact le_trans (hpend i h1) (Nat.le_succ _)
  | response t i b =>
    simp only [step]; split
    · exact ⟨hchain, hsent, fun j hj => hpend j (List.mem_of_mem_erase hj)⟩
    · exact ⟨hchain, hsent, hpend⟩
  | timeoutFire t i =>
    simp only [step]; split
    · exact ⟨hchain, hsent, fun j hj => hpend j (List.mem_of_mem_erase hj)⟩
    · exact ⟨hchain, hsent, hpend⟩
  | cleanup t =>
    exact ⟨hchain, hsent, by simp [step]⟩

theorem invIds_run (es : List Ev) : ∀ s : CState, InvIds s → InvIds (runFrom s es) := by
  induction es with
  | nil => exact fun s h => h
  | cons e es ih => exact fun s h => ih (step s e) (invIds_step s e h)

theorem invIds_mkClient (key : List Char) : InvIds (mkClient key) := by
  refine ⟨List.chain'_nil, ?_, ?_⟩ <;> simp [mkClient]

/-- Consecutive sends enumerate the ids `counter+1, counter+2, ...`. -/
theorem run_replicate_send (t : Nat) :
    ∀ (n : Nat) (s : CState),
      (runFrom s (List.replicate n (Ev.send t))).sentIds
        = s.sentIds ++ List.range' (s.requestId + 1) n := by
  intro n
  induction n with
  | zero => intro s; simp [runFrom]
  | succ n ih =>
    intro s
    have : List.replicate (n + 1) (Ev.send t) = Ev.send t :: List.replicate n (Ev.send t) :=
      List.replicate_succ _ _
    rw [this]
    show (runFrom (step s (.send t)) (List.replicate n (Ev.send t))).sentIds = _
    rw [ih (step s (.send t)), step_send_sentIds, step_send_requestId,
        List.append_assoc, List.range'_succ]
    rfl

/-- C5: in any run of the client (any interleaving of sends, responses,
timer firings and cleanups), the request ids handed out by `sendRequest` are
strictly increasing in send order, pairwise distinct, and never reused; `n`
consecutive `sendRequest` calls on a fresh client produce exactly the ids
`1, 2, ..., n`. -/
theorem c5_request_ids_unique_monotone (key : List Char) (es : List Ev) :
    List.Chain' (· < ·) ((runFrom (mkClient key) es).sentIds) ∧
    ((runFrom (mkClient key) es).sentIds).Nodup ∧
    (∀ n t, (runFrom (mkClient key) (List.replicate n (Ev.send t))).sentIds
        = List.range' 1 n) := by
  have hinv := invIds_run es (mkClient key) (invIds_mkClient key)
  have hchain := hinv.1
  refine ⟨hchain, ?_, ?_⟩
  · have hp : ((runFrom (mkClient key) es).sentIds).Pairwise (· < ·) :=
      List.chain'_iff_pairwise.mp hchain
    exact List.Pairwise.imp (fun h => Nat.ne_of_lt h) hp
  · intro n t
    rw [run_replicate_send t n (mkClient key)]
    simp [mkClient]

/-! ## Settlement bookkeeping lemmas -/

theorem settlesFor_addSettle_ne (i j t : Nat) (o : Outcome)
    (log : List (Nat × Nat × Outcome)) (h : j ≠ i) :
    settlesFor i (addSettle j t o log) = settlesFor i log := by
  unfold addSettle
  split
  · rfl
  · unfold settlesFor
    rw [List.filter_cons]
    simp [h]

theorem settlesFor_eq_nil (i : Nat) (log : List (Nat × Nat × Outcome)) :
    countSettles i log = 0 ↔ settlesFor i log = [] := by
  unfold countSettles settlesFor
  exact List.length_eq_zero

theorem addSettle_count_zero (i t : Nat) (o : Outcome)
    (log : List (Nat × Nat × Outcome)) (h : countSettles i log = 0) :
    addSettle i t o log = (i, t, o) :: log := by
  unfold addSettle
  split
  · next h2 =>
    rcases List.any_eq_true.mp h2 with ⟨e, he, hei⟩
    have hmem : e ∈ settlesFor i log := List.mem_filter.mpr ⟨he, hei⟩
    rw [(settlesFor_eq_nil i log).mp h] at hmem
    exact absurd hmem (List.not_mem_nil e)
  · rfl

/-! ## Frozen ids: once an id is out of the pending map and below the
counter, nothing can ever settle it again -/

theorem frozenId_step (i : Nat) (L : List (Nat × Nat × Outcome))
    (s : CState) (e : Ev) (h : FrozenId i L s) : FrozenId i L (step s e) := by
  obtain ⟨hle, hnp, hfr⟩ := h
  cases e with
  | send t =>
    have hne : s.requestId + 1 ≠ i := by omega
    have hmem : i ∉ (s.requestId + 1) :: s.pending := by
      intro hm
      rcases List.mem_cons.mp hm with h1 | h1
      · exact hne h1.symm
      · exact hnp h1
    simp only [step]
    split
    · exact ⟨by show i ≤ s.requestId + 1; omega, hmem, hfr⟩
    · exact ⟨by show i ≤ s.requestId + 1; omega, hmem,
             by show settlesFor i (addSettle _ _ _ s.settleLog) = L
                rw [settlesFor_addSettle_ne _ _ _ _ _ hne]; exact hfr⟩
  | response t j b =>
    simp only [step]
    split
    · next hj =>
      have hji : j ≠ i := fun he => hnp (he ▸ hj)
      exact ⟨hle, fun hm => hnp (List.mem_of_mem_erase hm),
             by rw [settlesFor_addSettle_ne _ _ _ _ _ hji]; exact hfr⟩
    · exact ⟨hle, hnp, hfr⟩
  | timeoutFire t j =>
    simp only [step]
    split
    · next hj =>
      have hji : j ≠ i := fun he => hnp (he ▸ hj)
      exact ⟨hle, fun hm => hnp (List.mem_of_mem_erase hm),
             by rw [settlesFor_addSettle_ne _ _ _ _ _ hji]; exact hfr⟩
    · exact ⟨hle, hnp, hfr⟩
  | cleanup t =>
    exact ⟨hle, by simp [step], hfr⟩

theorem frozenId_run (i : Nat) (L : List (Nat × Nat × Outcome))
    (es : List Ev) : ∀ s, FrozenId i L s → FrozenId i L (runFrom s es) := by
  induction es with
  | nil => exact fun s h => h
  | cons e es ih => exact fun s h => ih (step s e) (frozenId_step i L s e h)

/-! ## C1: pending requests are lost by `cleanup` -/

/-- C1: the claim says every request issued through `sendRequest` settles
with exactly one outcome, in particular requests pending when the subprocess
exits and `cleanup` runs. The code violates this: `cleanup` clears
`pendingRequests` without rejecting, and the request's own 10-second timer
then finds the id absent and does not reject either. Concretely, after
`initialize` (request id 1), a `sendRequest` at t=1 (id 2) and a `cleanup`
at t=2, id 2 is pending just before the cleanup (second conjunct), the id-2
timer firing at t=10001 is an admissible continuation (third conjunct), yet
under every continuation whatsoever id 2 ends with zero settlements — its
promise never resolves or rejects. -/
theorem c1_pending_request_never_settles_after_cleanup :
    (∀ es : List Ev,
      countSettles 2 ((runFrom (initializeC (mkClient "/w".data) 0)
        (Ev.send 1 :: Ev.cleanup 2 :: es)).settleLog) = 0) ∧
    2 ∈ (runFrom (initializeC (mkClient "/w".data) 0) [Ev.send 1]).pending ∧
    validFrom (runFrom (initializeC (mkClient "/w".data) 0) [Ev.send 1, Ev.cleanup 2])
      [Ev.timeoutFire 10001 2] = true := by
  refine ⟨?_, by decide, by decide⟩
  intro es
  have hbase : FrozenId 2 [] (runFrom (initializeC (mkClient "/w".data) 0)
      [Ev.send 1, Ev.cleanup 2]) := ⟨by decide, by decide, by decide⟩
  have hfin := frozenId_run 2 [] es _ hbase
  have hrun : runFrom (initializeC (mkClient "/w".data) 0) (Ev.send 1 :: Ev.cleanup 2 :: es)
      = runFrom (runFrom (initializeC (mkClient "/w".data) 0) [Ev.send 1, Ev.cleanup 2]) es := rfl
  rw [hrun]
  exact (settlesFor_eq_nil _ _).mpr hfin.2.2

/-! ## Registry invariant and validity decomposition -/

theorem runFrom_append (s : CState) (l1 l2 : List Ev) :
    runFrom s (l1 ++ l2) = runFrom (runFrom s l1) l2 :=
  List.foldl_append _ _ _ _

theorem validFrom_append (l1 : List Ev) :
    ∀ (s : CState) (l2 : List Ev),
      validFrom s (l1 ++ l2) = (validFrom s l1 && validFrom (runFrom s l1) l2) := by
  induction l1 with
  | nil => intro s l2; simp [validFrom, runFrom]
  | cons e es ih =>
    intro s l2
    show (evOk s e && validFrom (step s e) (es ++ l2))
      = ((evOk s e && validFrom (step s e) es) && validFrom (runFrom (step s e) es) l2)
    rw [ih (step s e) l2, Bool.and_assoc]

theorem lookupNat_mem (i : Nat) :
    ∀ (l : List (Nat × Nat)) (t : Nat), lookupNat i l = some t → (i, t) ∈ l := by
  intro l
  induction l with
  | nil => intro t h; simp [lookupNat] at h
  | cons p rest ih =>
    intro t h
    obtain ⟨j, t2⟩ := p
    by_cases hj : j = i
    · subst hj
      simp only [lookupNat, if_true, Option.some.injEq] at h
      subst h
      exact List.mem_cons_self _ _
    · simp only [lookupNat, if_neg hj] at h
      exact List.mem_cons_of_mem _ (ih t h)

theorem mem_addSettle (e : Nat × Nat × Outcome) (i t : Nat) (o : Outcome)
    (log : List (Nat × Nat × Outcome)) (h : e ∈ addSettle i t o log) :
    e = (i, t, o) ∨ e ∈ log := by
  unfold addSettle at h
  split at h
  · exact Or.inr h
  · rcases List.mem_cons.mp h with h1 | h1
    · exact Or.inl h1
    · exact Or.inr h1

theorem countSettles_addSettle_ne (i j t : Nat) (o : Outcome)
    (log : List (Nat × Nat × Outcome)) (h : j ≠ i) :
    countSettles i (addSettle j t o log) = countSettles i log := by
  show (settlesFor i (addSettle j t o log)).length = (settlesFor i log).length
  rw [settlesFor_addSettle_ne i j t o log h]

theorem countSettles_zero_of_bound (r : Nat) (log : List (Nat × Nat × Outcome))
    (h : ∀ e ∈ log, e.1 ≤ r) : countSettles (r + 1) log = 0 := by
  unfold countSettles
  rw [List.length_eq_zero, List.filter_eq_nil_iff]
  intro e he
  have := h e he
  simp
  omega

theorem reqInv_step (s : CState) (e : Ev) (h : ReqInv s) : ReqInv (step s e) := by
  obtain ⟨hnd, hple, hsle, hcle, hfresh⟩ := h
  cases e with
  | send t =>
    have hid : s.requestId + 1 ∉ s.pending := fun hm => by have := hple _ hm; omega
    simp only [step]
    split <;> (unfold ReqInv; dsimp only)
    · refine ⟨List.nodup_cons.mpr ⟨hid, hnd⟩, ?_, ?_, ?_, ?_⟩
      · intro i hi
        rcases List.mem_cons.mp hi with h1 | h1
        · omega
        · have := hple i h1; omega
      · intro e2 he2
        have := hsle e2 he2; omega
      · intro p hp
        rcases List.mem_cons.mp hp with h1 | h1
        · rw [h1]
        · have := hcle p h1; omega
      · intro i hi hex
        rcases List.mem_cons.mp hi with h1 | h1
        · subst h1
          exact countSettles_zero_of_bound s.requestId s.settleLog hsle
        · obtain ⟨t0, ht0⟩ := hex
          rcases List.mem_cons.mp ht0 with h2 | h2
          · have hle := hple i h1
            have : i = s.requestId + 1 := congrArg Prod.fst h2
            omega
          · exact hfresh i h1 ⟨t0, h2⟩
    · refine ⟨List.nodup_cons.mpr ⟨hid, hnd⟩, ?_, ?_, ?_, ?_⟩
      · intro i hi
        rcases List.mem_cons.mp hi with h1 | h1
        · omega
        · have := hple i h1; omega
      · intro e2 he2
        rcases mem_addSettle e2 _ _ _ _ he2 with h1 | h1
        · rw [h1]
        · have := hsle e2 h1; omega
      · intro p hp
        have := hcle p hp; omega
      · intro i hi hex
        obtain ⟨t0, ht0⟩ := hex
        rcases List.mem_cons.mp hi with h1 | h1
        · subst h1
          have := hcle _ ht0
          simp at this
        · have hne : s.requestId + 1 ≠ i := by
            have := hple i h1; omega
          rw [countSettles_addSettle_ne _ _ _ _ _ hne]
          exact hfresh i h1 ⟨t0, ht0⟩
  | response t j b =>
    simp only [step]
    split
    · next hj =>
      refine ⟨hnd.erase j, ?_, ?_, hcle, ?_⟩
      · intro i hi
        exact hple i (List.mem_of_mem_erase hi)
      · intro e2 he2
        rcases mem_addSettle e2 _ _ _ _ he2 with h1 | h1
        · rw [h1]; exact hple j hj
        · exact hsle e2 h1
      · intro i hi hex
        have hij : i ≠ j := ((List.Nodup.mem_erase_iff hnd).mp hi).1
        rw [countSettles_addSettle_ne _ _ _ _ _ (fun he => hij he.symm)]
        exact hfresh i (List.mem_of_mem_erase hi) hex
    · exact ⟨hnd, hple, hsle, hcle, hfresh⟩
  | timeoutFire t j =>
    simp only [step]
    split
    · next hj =>
      refine ⟨hnd.erase j, ?_, ?_, hcle, ?_⟩
      · intro i hi
        exact hple i (List.mem_of_mem_erase hi)
      · intro e2 he2
        rcases mem_addSettle e2 _ _ _ _ he2 with h1 | h1
        · rw [h1]; exact hple j hj
        · exact hsle e2 h1
      · intro i hi hex
        have hij : i ≠ j := ((List.Nodup.mem_erase_iff hnd).mp hi).1
        rw [countSettles_addSettle_ne _ _ _ _ _ (fun he => hij he.symm)]
        exact hfresh i (List.mem_of_mem_erase hi) hex
    · exact ⟨hnd, hple, hsle, hcle, hfresh⟩
  | cleanup t =>
    simp only [step]
    unfold ReqInv
    dsimp only
    exact ⟨List.nodup_nil, by simp, hsle, hcle, by simp⟩

theorem reqInv_run (es : List Ev) :
    ∀ s : CState, ReqInv s → ReqInv (runFrom s es) := by
  induction es with
  | nil => exact fun s h => h
  | cons e es ih => exact fun s h => ih (step s e) (reqInv_step s e h)

theorem reqInv_initialized (key : List Char) :
    ReqInv (initializeC (mkClient key) 0) := by
  refine ⟨?_, ?_, ?_, ?_, ?_⟩ <;>
    simp [initializeC, mkClient, step, addSettle, countSettles, ReqInv]

/-! ## C4: the timeout path of the request registry -/

/-- C4 (amended): provided the id is still in the pending map when its
single-shot 10-second timer fires (it received no response and no `cleanup`
cleared it), the continuation is rejected exactly once with a timeout error:
the settlement record of `i` in the final state is exactly one timeout
rejection, stamped at the timer time `τ`, which the admissibility of the
trace places at or after `createdAt + 10000`; `i` is removed from the
pending map and stays out; and completing an id that is not in the pending
map — a late response or a late timer check — changes neither the pending
map nor the settlement log. -/
theorem c4_timeout_rejects_once_amended (key : List Char) (es1 es2 : List Ev)
    (i τ : Nat)
    (hval : validFrom (initializeC (mkClient key) 0)
        (es1 ++ Ev.timeoutFire τ i :: es2) = true)
    (hpend : i ∈ (runFrom (initializeC (mkClient key) 0) es1).pending) :
    settlesFor i ((runFrom (initializeC (mkClient key) 0)
        (es1 ++ Ev.timeoutFire τ i :: es2)).settleLog)
      = [(i, τ, Outcome.timeoutError)] ∧
    i ∉ (runFrom (initializeC (mkClient key) 0)
        (es1 ++ Ev.timeoutFire τ i :: es2)).pending ∧
    (∃ t0, (i, t0) ∈ (runFrom (initializeC (mkClient key) 0) es1).createdAt ∧
      t0 + 10000 ≤ τ) ∧
    (∀ (s : CState) (t2 j : Nat) (b : Bool), j ∉ s.pending →
      (step s (.response t2 j b)).pending = s.pending ∧
      (step s (.response t2 j b)).settleLog = s.settleLog ∧
      (step s (.timeoutFire t2 j)).pending = s.pending ∧
      (step s (.timeoutFire t2 j)).settleLog = s.settleLog) := by
  have hsplit : validFrom (initializeC (mkClient key) 0) es1 = true ∧
      validFrom (runFrom (initializeC (mkClient key) 0) es1)
        (Ev.timeoutFire τ i :: es2) = true := by
    have h := hval
    rw [validFrom_append] at h
    exact Bool.and_eq_true_iff.mp h
  have hev : evOk (runFrom (initializeC (mkClient key) 0) es1)
        (Ev.timeoutFire τ i) = true ∧
      validFrom (step (runFrom (initializeC (mkClient key) 0) es1)
        (Ev.timeoutFire τ i)) es2 = true :=
    Bool.and_eq_true_iff.mp hsplit.2
  have hdl : ∃ t0, (i, t0) ∈ (runFrom (initializeC (mkClient key) 0) es1).createdAt ∧
      t0 + 10000 ≤ τ := by
    have h3 := hev.1
    simp only [evOk] at h3
    rw [Bool.and_eq_true_iff, Bool.and_eq_true_iff] at h3
    obtain ⟨⟨_, hmatch⟩, _⟩ := h3
    cases hl : lookupNat i (runFrom (initializeC (mkClient key) 0) es1).createdAt with
    | none => rw [hl] at hmatch; simp at hmatch
    | some t0 =>
      rw [hl] at hmatch
      simp at hmatch
      exact ⟨t0, lookupNat_mem i _ t0 hl, hmatch⟩
  obtain ⟨t0, ht0mem, ht0le⟩ := hdl
  have hinv : ReqInv (runFrom (initializeC (mkClient key) 0) es1) :=
    reqInv_run es1 _ (reqInv_initialized key)
  have hcount : countSettles i (runFrom (initializeC (mkClient key) 0) es1).settleLog = 0 :=
    hinv.2.2.2.2 i hpend ⟨t0, ht0mem⟩
  have hlog : (step (runFrom (initializeC (mkClient key) 0) es1)
      (Ev.timeoutFire τ i)).settleLog
      = (i, τ, Outcome.timeoutError) :: (runFrom (initializeC (mkClient key) 0) es1).settleLog := by
    simp only [step]
    rw [if_pos hpend]
    exact addSettle_count_zero i τ _ _ hcount
  have hpend2 : (step (runFrom (initializeC (mkClient key) 0) es1)
      (Ev.timeoutFire τ i)).pending
      = (runFrom (initializeC (mkClient key) 0) es1).pending.erase i := by
    simp only [step]
    rw [if_pos hpend]
  have hrid : (step (runFrom (initializeC (mkClient key) 0) es1)
      (Ev.timeoutFire τ i)).requestId
      = (runFrom (initializeC (mkClient key) 0) es1).requestId := by
    simp only [step]
    rw [if_pos hpend]
  have hfz : FrozenId i [(i, τ, Outcome.timeoutError)]
      (step (runFrom (initializeC (mkClient key) 0) es1) (Ev.timeoutFire τ i)) := by
    refine ⟨?_, ?_, ?_⟩
    · rw [hrid]
      exact hinv.2.1 i hpend
    · rw [hpend2]
      intro hm
      exact ((List.Nodup.mem_erase_iff hinv.1).mp hm).1 rfl
    · show settlesFor i _ = _
      rw [hlog]
      unfold settlesFor
      rw [List.filter_cons]
      have hnil : settlesFor i (runFrom (initializeC (mkClient key) 0) es1).settleLog = [] :=
        (settlesFor_eq_nil i _).mp hcount
      unfold settlesFor at hnil
      rw [hnil]
      simp
  have hfinal := frozenId_run i _ es2 _ hfz
  have hrw : runFrom (initializeC (mkClient key) 0) (es1 ++ Ev.timeoutFire τ i :: es2)
      = runFrom (step (runFrom (initializeC (mkClient key) 0) es1)
          (Ev.timeoutFire τ i)) es2 := by
    rw [runFrom_append]
    rfl
  refine ⟨by rw [hrw]; exact hfinal.2.2, by rw [hrw]; exact hfinal.2.1,
          ⟨t0, ht0mem, ht0le⟩, ?_⟩
  intro s t2 j b hj
  refine ⟨?_, ?_, ?_, ?_⟩ <;> simp [step, hj]

/-- Witness for C4 at a concrete run: after `initialize`, a request sent at
t=1 gets id 2; its timer fires at t=10001 and rejects it with the timeout
error; a response for id 2 arriving afterwards at t=10002 is admissible and
changes nothing — id 2 still carries exactly the one timeout rejection. -/
theorem c4_timeout_rejects_once_amended_witness :
    validFrom (initializeC (mkClient "/w".data) 0)
        ([Ev.send 1] ++ Ev.timeoutFire 10001 2 :: [Ev.response 10002 2 false]) = true ∧
    2 ∈ (runFrom (initializeC (mkClient "/w".data) 0) [Ev.send 1]).pending ∧
    settlesFor 2 ((runFrom (initializeC (mkClient "/w".data) 0)
        ([Ev.send 1] ++ Ev.timeoutFire 10001 2 :: [Ev.response 10002 2 false])).settleLog)
      = [(2, 10001, Outcome.timeoutError)] :=
  ⟨by decide, by decide,
   (c4_timeout_rejects_once_amended "/w".data [Ev.send 1] [Ev.response 10002 2 false]
      2 10001 (by decide) (by decide)).1⟩

/-- C4 counterexample: the claim as stated — every request whose id never
receives a matching response rejects exactly once at or after its deadline —
fails when `cleanup` runs first. In the admissible trace below, request id 2
never receives a response, yet after `cleanup` at t=2 its timer firing at
t=10001 finds the id gone from the pending map and rejects nothing: id 2
ends with zero settlements instead of one. -/
theorem c4_counterexample_cleanup_prevents_rejection :
    validFrom (initializeC (mkClient "/w".data) 0)
        [Ev.send 1, Ev.cleanup 2, Ev.timeoutFire 10001 2] = true ∧
    (∀ t b, Ev.response t 2 b ∉ [Ev.send 1, Ev.cleanup 2, Ev.timeoutFire 10001 2]) ∧
    countSettles 2 ((runFrom (initializeC (mkClient "/w".data) 0)
        [Ev.send 1, Ev.cleanup 2, Ev.timeoutFire 10001 2]).settleLog) = 0 := by
  refine ⟨by decide, ?_, by decide⟩
  intro t b
  simp

/-! ## Manager lemmas -/

theorem lookupStr_mem (k : String) :
    ∀ (l : List (String × Nat)) (v : Nat), lookupStr k l = some v → (k, v) ∈ l := by
  intro l
  induction l with
  | nil => intro v h; simp [lookupStr] at h
  | cons p rest ih =>
    intro v h
    obtain ⟨k2, v2⟩ := p
    by_cases hk : k2 = k
    · subst hk
      simp only [lookupStr, if_true, Option.some.injEq] at h
      subst h
      exact List.mem_cons_self _ _
    · simp only [lookupStr, if_neg hk] at h
      exact List.mem_cons_of_mem _ (ih v h)

theorem nodup_snd_inj :
    ∀ (l : List (String × Nat)), (l.map Prod.snd).Nodup →
      ∀ (a b : String) (x : Nat), (a, x) ∈ l → (b, x) ∈ l → a = b := by
  intro l
  induction l with
  | nil => intro _ a b x ha _; exact absurd ha (List.not_mem_nil _)
  | cons p rest ih =>
    intro hnd a b x ha hb
    have hnd2 := List.nodup_cons.mp hnd
    rcases List.mem_cons.mp ha with h1 | h1 <;> rcases List.mem_cons.mp hb with h2 | h2
    · rw [← h1] at h2
      exact congrArg Prod.fst h2.symm
    · exfalso
      apply hnd2.1
      rw [← h1]
      show x ∈ List.map Prod.snd rest
      exact List.mem_map_of_mem Prod.snd h2
    · exfalso
      apply hnd2.1
      rw [← h2]
      show x ∈ List.map Prod.snd rest
      exact List.mem_map_of_mem Prod.snd h1
    · exact ih hnd2.2 a b x h1 h2


theorem getOrCreate_ok_shape (m : MState) (k : String) (b1 : Bool) (t1 : Nat)
    (m1 : MState) (c1 : Nat)
    (hcall : getOrCreateWorkspaceM m k b1 t1 = (m1, .ok c1)) :
    lookupStr k m1.workspaces = some c1 ∧
    ((m1 = m ∧ (k, c1) ∈ m.workspaces) ∨
     (c1 = m.nextId ∧ m1.workspaces = (k, c1) :: m.workspaces ∧
       m1.nextId = m.nextId + 1)) := by
  unfold getOrCreateWorkspaceM at hcall
  cases hl : lookupStr k m.workspaces with
  | some cid =>
    rw [hl] at hcall
    rw [Prod.ext_iff] at hcall
    obtain ⟨hm, hc⟩ := hcall
    injection hc with hc
    subst hc
    subst hm
    exact ⟨hl, Or.inl ⟨rfl, lookupStr_mem k _ _ hl⟩⟩
  | none =>
    rw [hl] at hcall
    cases b1 with
    | false =>
      simp only [Bool.false_eq_true, if_false, Prod.ext_iff] at hcall
      exact absurd hcall.2 (by simp)
    | true =>
      simp only [if_true, Prod.ext_iff] at hcall
      obtain ⟨hm, hc⟩ := hcall
      injection hc with hc
      subst hc
      subst hm
      refine ⟨?_, Or.inr ⟨rfl, rfl, rfl⟩⟩
      show (if k = k then some m.nextId else lookupStr k m.workspaces) = some m.nextId
      rw [if_pos rfl]

/-! ## C6: workspace reuse -/

/-- C6: `getOrCreateWorkspace` called twice in sequence with the same key
returns the identical client both times and leaves the manager untouched on
the second call (no new client is allocated); called next with a different
key it returns a distinct client. Clients are identified by allocation
order, so distinct identities are distinct objects. The two hypotheses are
the manager's allocation invariant (registered ids are below the allocation
counter, and no client is registered under two keys); both hold for the
empty manager. -/
theorem c6_getOrCreate_reuse_and_distinct (m : MState)
    (hb : ∀ p ∈ m.workspaces, p.2 < m.nextId)
    (hnd : (m.workspaces.map Prod.snd).Nodup)
    (k k2 : String) (b1 b2 b3 : Bool) (t1 t2 t3 : Nat)
    (m1 m2 : MState) (c1 c2 : Nat) :
    (getOrCreateWorkspaceM m k b1 t1 = (m1, .ok c1) →
      getOrCreateWorkspaceM m1 k b2 t2 = (m1, .ok c1)) ∧
    (k ≠ k2 →
      getOrCreateWorkspaceM m k b1 t1 = (m1, .ok c1) →
      getOrCreateWorkspaceM m1 k2 b3 t3 = (m2, .ok c2) →
      c1 ≠ c2) := by
  constructor
  · intro hcall
    have hl := (getOrCreate_ok_shape m k b1 t1 m1 c1 hcall).1
    unfold getOrCreateWorkspaceM
    rw [hl]
  · intro hkk hcall1 hcall2
    obtain ⟨hl1, hcase1⟩ := getOrCreate_ok_shape m k b1 t1 m1 c1 hcall1
    have hmem1 : (k, c1) ∈ m1.workspaces := lookupStr_mem k _ _ hl1
    have hb1 : ∀ p ∈ m1.workspaces, p.2 < m1.nextId := by
      rcases hcase1 with ⟨hm, _⟩ | ⟨hc1, hws, hnx⟩
      · subst hm; exact hb
      · rw [hws, hnx]
        intro p hp
        rcases List.mem_cons.mp hp with h1 | h1
        · rw [h1, hc1]; omega
        · have := hb p h1; omega
    have hnd1 : (m1.workspaces.map Prod.snd).Nodup := by
      rcases hcase1 with ⟨hm, _⟩ | ⟨hc1, hws, _⟩
      · subst hm; exact hnd
      · rw [hws]
        rw [List.map_cons]
        refine List.nodup_cons.mpr ⟨?_, hnd⟩
        intro hmem
        rcases List.mem_map.mp hmem with ⟨p, hp, hps⟩
        have := hb p hp
        rw [hps, hc1] at this
        omega
    unfold getOrCreateWorkspaceM at hcall2
    cases hl2 : lookupStr k2 m1.workspaces with
    | some cid =>
      rw [hl2] at hcall2
      rw [Prod.ext_iff] at hcall2
      obtain ⟨_, hc⟩ := hcall2
      injection hc with hc
      rw [← hc]
      have hmem2 : (k2, cid) ∈ m1.workspaces := lookupStr_mem k2 _ _ hl2
      intro heq
      rw [heq] at hmem1
      exact hkk (nodup_snd_inj m1.workspaces hnd1 k k2 cid hmem1 hmem2)
    | none =>
      rw [hl2] at hcall2
      cases b3 with
      | false =>
        simp only [Bool.false_eq_true, if_false, Prod.ext_iff] at hcall2
        exact absurd hcall2.2 (by simp)
      | true =>
        simp only [if_true, Prod.ext_iff] at hcall2
        obtain ⟨_, hc⟩ := hcall2
        injection hc with hc
        rw [← hc]
        have := hb1 (k, c1) hmem1
        omega

/-- Witness for C6: on the empty manager, creating `"/a"`, re-asking for
`"/a"` reuses client 0 without change, and then asking for `"/b"` yields the
distinct client 1. -/
theorem c6_getOrCreate_reuse_and_distinct_witness :
    (getOrCreateWorkspaceM
        (getOrCreateWorkspaceM emptyM "/a" true 0).1 "/a" true 0
      = ((getOrCreateWorkspaceM emptyM "/a" true 0).1, .ok 0)) ∧
    (0 : Nat) ≠ 1 := by
  have h1 : getOrCreateWorkspaceM emptyM "/a" true 0
      = ((getOrCreateWorkspaceM emptyM "/a" true 0).1, .ok 0) := by
    constructor
  refine ⟨(c6_getOrCreate_reuse_and_distinct emptyM (by simp [emptyM])
      (by simp [emptyM]) "/a" "/b" true true true 0 0 0
      (getOrCreateWorkspaceM emptyM "/a" true 0).1
      (getOrCreateWorkspaceM
        ((getOrCreateWorkspaceM emptyM "/a" true 0).1) "/b" true 0).1
      0 1).1 h1, by decide⟩

/-! ## C7: initialization failure leaves the registry unchanged -/

/-- C7: when the key is not registered and the new client's `initialize`
throws, `getOrCreateWorkspace` propagates the error, the workspace map is
unchanged and the key stays unregistered; in general a failing call never
registers anything, so registration happens only after a successful
initialization. -/
theorem c7_init_failure_unregistered (m : MState) (k : String) (t : Nat)
    (h : lookupStr k m.workspaces = none) :
    (getOrCreateWorkspaceM m k false t).2 = .error () ∧
    (getOrCreateWorkspaceM m k false t).1.workspaces = m.workspaces ∧
    lookupStr k (getOrCreateWorkspaceM m k false t).1.workspaces = none ∧
    (∀ (b : Bool) (t2 : Nat), (getOrCreateWorkspaceM m k b t2).2 = .error () →
      (getOrCreateWorkspaceM m k b t2).1.workspaces = m.workspaces) := by
  have hred : ∀ t2 : Nat, getOrCreateWorkspaceM m k false t2
      = ({ nextId := m.nextId + 1, workspaces := m.workspaces,
           clients := (m.nextId, mkClient k.data) :: m.clients }, .error ()) := by
    intro t2
    unfold getOrCreateWorkspaceM
    rw [h]
    rfl
  refine ⟨by rw [hred], by rw [hred], by rw [hred]; exact h, ?_⟩
  intro b t2 herr
  cases b with
  | false => rw [hred]
  | true =>
    exfalso
    unfold getOrCreateWorkspaceM at herr
    rw [h] at herr
    simp at herr
  
/-- Witness for C7 on the empty manager. -/
theorem c7_init_failure_unregistered_witness :
    lookupStr "/a" emptyM.workspaces = none ∧
    (getOrCreateWorkspaceM emptyM "/a" false 0).2 = .error () ∧
    (getOrCreateWorkspaceM emptyM "/a" false 0).1.workspaces = emptyM.workspaces :=
  ⟨rfl, (c7_init_failure_unregistered emptyM "/a" 0 rfl).1,
   (c7_init_failure_unregistered emptyM "/a" 0 rfl).2.1⟩

/-! ## C8: bulk teardown -/

theorem shutdownC_closed (s0 : CState) (b : Bool) (t2 : Nat) :
    (shutdownC s0 b t2).initialized = false ∧
    (shutdownC s0 b t2).pending = [] ∧
    (shutdownC s0 b t2).openDocs = [] ∧
    (shutdownC s0 b t2).procAlive = false ∧
    (s0.procAlive = true → (shutdownC s0 b t2).killedProc = true) := by
  cases hi : s0.initialized <;> cases hb : b <;> cases hp : s0.procAlive <;>
    simp [shutdownC, cleanupC, step, hi, hp, addSettle]

/-- C8: after `closeAll()` the registry has zero entries, the heap entry of
every registered client is its shut-down state, and a shut-down client
satisfies the Closed properties: `initialized` false, empty pending map,
empty open-document set, subprocess handle null — and killed, when there was
a live one. -/
theorem c8_closeAll_empties_registry_and_closes_clients
    (m : MState) (respOk : Nat → Bool) (t : Nat) :
    (closeAllM m respOk t).workspaces = [] ∧
    (∀ k cid, (k, cid) ∈ m.workspaces → ∀ s0, (cid, s0) ∈ m.clients →
      (cid, shutdownC s0 (respOk cid) t) ∈ (closeAllM m respOk t).clients) ∧
    (∀ (s0 : CState) (b : Bool) (t2 : Nat),
      (shutdownC s0 b t2).initialized = false ∧
      (shutdownC s0 b t2).pending = [] ∧
      (shutdownC s0 b t2).openDocs = [] ∧
      (shutdownC s0 b t2).procAlive = false ∧
      (s0.procAlive = true → (shutdownC s0 b t2).killedProc = true)) := by
  refine ⟨rfl, ?_, shutdownC_closed⟩
  intro k cid hk s0 hs0
  have hcond : (m.workspaces.any (fun w => w.2 = cid)) = true :=
    List.any_eq_true.mpr ⟨(k, cid), hk, by simp⟩
  have hmap := List.mem_map_of_mem
    (fun p : Nat × CState =>
      if m.workspaces.any (fun w => w.2 = p.1)
      then (p.1, shutdownC p.2 (respOk p.1) t)
      else p) hs0
  dsimp only at hmap
  rw [if_pos hcond] at hmap
  exact hmap

/-- Witness for C8: a manager with one registered, initialized client; after
`closeAll` the registry is empty and client 0's heap entry is closed. -/
theorem c8_closeAll_empties_registry_and_closes_clients_witness :
    (closeAllM
      { nextId := 1, workspaces := [("/a", 0)],
        clients := [(0, initializeC (mkClient "/a".data) 0)] }
      (fun _ => true) 5).workspaces = [] ∧
    (0, shutdownC (initializeC (mkClient "/a".data) 0) true 5) ∈
      (closeAllM
        { nextId := 1, workspaces := [("/a", 0)],
          clients := [(0, initializeC (mkClient "/a".data) 0)] }
        (fun _ => true) 5).clients ∧
    (shutdownC (initializeC (mkClient "/a".data) 0) true 5).initialized = false ∧
    (shutdownC (initializeC (mkClient "/a".data) 0) true 5).pending = [] ∧
    (shutdownC (initializeC (mkClient "/a".data) 0) true 5).killedProc = true := by
  have h := c8_closeAll_empties_registry_and_closes_clients
    { nextId := 1, workspaces := [("/a", 0)],
      clients := [(0, initializeC (mkClient "/a".data) 0)] }
    (fun _ => true) 5
  refine ⟨h.1, ?_, ?_, ?_, ?_⟩
  · exact h.2.1 "/a" 0 (List.mem_cons_self _ _) _ (List.mem_cons_self _ _)
  · exact (h.2.2 (initializeC (mkClient "/a".data) 0) true 5).1
  · exact (h.2.2 (initializeC (mkClient "/a".data) 0) true 5).2.1
  · exact (h.2.2 (initializeC (mkClient "/a".data) 0) true 5).2.2.2.2 (by decide)

/-! ## C9: `ensureDocumentOpen` is idempotent -/

/-- C9: for a path that is not already tracked, on an initialized client
with a live process, and a file that is readable or missing (`ENOENT` —
any other read failure propagates instead of opening), calling
`ensureDocumentOpen` twice emits exactly one `didOpen` notification for the
uri: the first call succeeds and tracks the uri, and the second call
returns the very same state, so the open-document set after the second call
equals the set after the first. -/
theorem c9_ensureDocumentOpen_idempotent (s : CState) (fs : String → FsResult)
    (path : String)
    (hinit : s.initialized = true) (halive : s.procAlive = true)
    (hnot : ("file://" ++ path) ∉ s.openDocs)
    (hread : fs path ≠ FsResult.otherError) :
    ∃ s1, ensureDocumentOpenM fs s path = .ok s1 ∧
      ensureDocumentOpenM fs s1 path = .ok s1 ∧
      countOpens ("file://" ++ path) s1.notifLog
        = countOpens ("file://" ++ path) s.notifLog + 1 ∧
      s1.openDocs = ("file://" ++ path) :: s.openDocs := by
  cases hfs : fs path with
  | content text =>
    refine ⟨{ s with
        notifLog := Notif.didOpen ("file://" ++ path) (languageIdOf path) 1 text :: s.notifLog,
        openDocs := ("file://" ++ path) :: s.openDocs }, ?_, ?_, ?_, rfl⟩
    · simp [ensureDocumentOpenM, openDocumentM, hinit, halive, hfs, hnot]
    · simp [ensureDocumentOpenM]
    · simp [countOpens, List.filter_cons]
  | enoent =>
    refine ⟨{ s with
        notifLog := Notif.didOpen ("file://" ++ path) "typescript" 1 "// File not found\n" :: s.notifLog,
        openDocs := ("file://" ++ path) :: s.openDocs }, ?_, ?_, ?_, rfl⟩
    · simp [ensureDocumentOpenM, openDocumentM, hinit, halive, hfs, hnot]
    · simp [ensureDocumentOpenM]
    · simp [countOpens, List.filter_cons]
  | otherError => exact absurd hfs hread

/-- Witness for C9: a concrete initialized client and a one-file file
system; two `ensureDocumentOpen` calls produce exactly one `didOpen`. -/
theorem c9_ensureDocumentOpen_idempotent_witness :
    ∃ s1, ensureDocumentOpenM (fun _ => FsResult.content "let x = 1\n")
        (initializeC (mkClient "/w".data) 0) "/w/a.ts" = .ok s1 ∧
      ensureDocumentOpenM (fun _ => FsResult.content "let x = 1\n") s1 "/w/a.ts" = .ok s1 ∧
      countOpens "file:///w/a.ts" s1.notifLog
        = countOpens "file:///w/a.ts" (initializeC (mkClient "/w".data) 0).notifLog + 1 ∧
      s1.openDocs = "file:///w/a.ts" :: (initializeC (mkClient "/w".data) 0).openDocs :=
  c9_ensureDocumentOpen_idempotent (initializeC (mkClient "/w".data) 0)
    (fun _ => FsResult.content "let x = 1\n") "/w/a.ts"
    (by decide) (by decide) (by decide) (by decide)

/-! ## Decimal digit lemmas (framing header and JSON numerals) -/

theorem digitCh_isDigit : ∀ k : Nat, (digitCh k).isDigit = true := by
  intro k
  match k with
  | 0 | 1 | 2 | 3 | 4 | 5 | 6 | 7 | 8 => decide
  | n + 9 => rfl

theorem digitCh_toNat : ∀ k : Nat, k < 10 → (digitCh k).toNat = 48 + k := by
  intro k hk
  match k, hk with
  | 0, _ | 1, _ | 2, _ | 3, _ | 4, _ | 5, _ | 6, _ | 7, _ | 8, _ | 9, _ => decide

theorem natDigitsF_stable : ∀ (n fuel : Nat), n < fuel → natDigitsF fuel n = natDigits n := by
  intro n
  induction n using Nat.strong_induction_on with
  | _ n ih =>
    intro fuel hfuel
    match fuel, hfuel with
    | f + 1, hfuel =>
      by_cases h10 : n < 10
      · show natDigitsF (f + 1) n = natDigitsF (n + 1) n
        match n, h10 with
        | 0, _ => simp [natDigitsF]
        | m + 1, h10 =>
          show natDigitsF (f + 1) (m + 1) = natDigitsF (m + 2) (m + 1)
          unfold natDigitsF
          rw [if_pos h10, if_pos h10]
      · have hdiv : n / 10 < n := Nat.div_lt_self (by omega) (by omega)
        show natDigitsF (f + 1) n = natDigitsF (n + 1) n
        unfold natDigitsF
        rw [if_neg h10, if_neg h10]
        rw [ih (n / 10) hdiv f (by omega), ih (n / 10) hdiv n (by omega)]

theorem natDigits_small (n : Nat) (h : n < 10) : natDigits n = [digitCh n] := by
  unfold natDigits natDigitsF
  rw [if_pos h]

theorem natDigits_big (n : Nat) (h : 10 ≤ n) :
    natDigits n = natDigits (n / 10) ++ [digitCh (n % 10)] := by
  show natDigitsF (n + 1) n = _
  unfold natDigitsF
  rw [if_neg (by omega)]
  rw [natDigitsF_stable (n / 10) n (by
    have := Nat.div_lt_self (show 0 < n by omega) (show 1 < 10 by omega)
    omega)]

theorem natDigits_all_digit : ∀ (n : Nat), ∀ c ∈ natDigits n, c.isDigit = true := by
  intro n
  induction n using Nat.strong_induction_on with
  | _ n ih =>
    intro c hc
    by_cases h10 : n < 10
    · rw [natDigits_small n h10] at hc
      rcases List.mem_singleton.mp hc with rfl
      exact digitCh_isDigit n
    · rw [natDigits_big n (by omega)] at hc
      rcases List.mem_append.mp hc with h1 | h1
      · exact ih (n / 10) (Nat.div_lt_self (by omega) (by omega)) c h1
      · rcases List.mem_singleton.mp h1 with rfl
        exact digitCh_isDigit _

theorem natDigits_ne_nil (n : Nat) : natDigits n ≠ [] := by
  by_cases h10 : n < 10
  · rw [natDigits_small n h10]; simp
  · rw [natDigits_big n (by omega)]; simp

theorem digitsVal_append_digit (xs : List Char) (c : Char) :
    digitsVal (xs ++ [c]) = digitsVal xs * 10 + (c.toNat - 48) := by
  unfold digitsVal
  rw [List.foldl_append]
  rfl

theorem digitsVal_natDigits : ∀ n : Nat, digitsVal (natDigits n) = n := by
  intro n
  induction n using Nat.strong_induction_on with
  | _ n ih =>
    by_cases h10 : n < 10
    · rw [natDigits_small n h10]
      show 0 * 10 + ((digitCh n).toNat - 48) = n
      rw [digitCh_toNat n h10]
      omega
    · rw [natDigits_big n (by omega), digitsVal_append_digit,
          ih (n / 10) (Nat.div_lt_self (by omega) (by omega)),
          digitCh_toNat (n % 10) (Nat.mod_lt _ (by omega))]
      omega

/-! ## Prefix and takeWhile helpers -/

theorem takeWhile_all_append (p : Char → Bool) :
    ∀ (xs ys : List Char), (∀ x ∈ xs, p x = true) →
      List.takeWhile p (xs ++ ys) = xs ++ List.takeWhile p ys := by
  intro xs
  induction xs with
  | nil => intro ys _; rfl
  | cons x xs ih =>
    intro ys hall
    rw [List.cons_append, List.takeWhile_cons_of_pos (hall x (List.mem_cons_self _ _)),
        ih ys (fun a ha => hall a (List.mem_cons_of_mem _ ha)), List.cons_append]

theorem lcStartsWith_refl_append : ∀ (p r : List Char), lcStartsWith p (p ++ r) = true := by
  intro p
  induction p with
  | nil => intro r; rfl
  | cons c cs ih =>
    intro r
    show (c == c && lcStartsWith cs (cs ++ r)) = true
    rw [ih r]
    simp

theorem lcStartsWith_le_length : ∀ p q : List Char, lcStartsWith p q = true →
    p.length ≤ q.length := by
  intro p
  induction p with
  | nil => intro q _; simp
  | cons c cs ih =>
    intro q h
    cases q with
    | nil => exact absurd h (by simp [lcStartsWith])
    | cons d ds =>
      have h2 := (Bool.and_eq_true_iff.mp h).2
      have := ih ds h2
      simp only [List.length_cons]
      omega

theorem lcStartsWith_head (p c : Char) (ps cs : List Char)
    (h : lcStartsWith (p :: ps) (c :: cs) = true) : c = p := by
  have h1 := (Bool.and_eq_true_iff.mp h).1
  exact ((beq_iff_eq).mp h1).symm

/-! ## Escaped-string round trip -/

theorem escChar_length_pos (c : Char) : 1 ≤ (escChar c).length := by
  unfold escChar
  split_ifs <;> simp

theorem escList_length_ge : ∀ cs : List Char, cs.length ≤ (escList cs).length := by
  intro cs
  induction cs with
  | nil => simp [escList]
  | cons c cs ih =>
    show (c :: cs).length ≤ (escChar c ++ escList cs).length
    rw [List.length_append, List.length_cons]
    have := escChar_length_pos c
    omega

theorem hexVal_hexCh : ∀ k : Nat, k < 16 → hexVal (hexCh k) = some k := by decide

theorem parseStringBody_escList :
    ∀ (cs : List Char) (fuel : Nat) (rest : List Char), cs.length + 1 ≤ fuel →
      parseStringBody fuel (escList cs ++ '"' :: rest) = some (cs, rest) := by
  intro cs
  induction cs with
  | nil =>
    intro fuel rest hfuel
    match fuel, hfuel with
    | f + 1, _ => simp [escList, parseStringBody]
  | cons c cs ih =>
    intro fuel rest hfuel
    match fuel, hfuel with
    | f + 1, hfuel =>
      have hf : cs.length + 1 ≤ f := by
        simp only [List.length_cons] at hfuel
        omega
      have ihf := ih f rest hf
      show parseStringBody (f + 1) ((escChar c ++ escList cs) ++ '"' :: rest) = _
      unfold escChar
      split_ifs with h1 h2 h3 h4 h5 h6 h7 h8
      · subst h1
        simp [parseStringBody, ihf]
      · subst h2
        simp [parseStringBody, ihf]
      · simp only [List.cons_append, List.nil_append]
        have hc : Char.ofNat 8 = c := by
          rw [← h3, Char.ofNat_toNat]
        simp [parseStringBody, ihf, hc]
        exact hc
      · simp only [List.cons_append, List.nil_append]
        have hc : Char.ofNat 9 = c := by
          rw [← h4, Char.ofNat_toNat]
        simp [parseStringBody, ihf, hc]
        exact hc
      · simp only [List.cons_append, List.nil_append]
        have hc : Char.ofNat 10 = c := by
          rw [← h5, Char.ofNat_toNat]
        simp [parseStringBody, ihf, hc]
        exact hc
      · simp only [List.cons_append, List.nil_append]
        have hc : Char.ofNat 12 = c := by
          rw [← h6, Char.ofNat_toNat]
        simp [parseStringBody, ihf, hc]
        exact hc
      · simp only [List.cons_append, List.nil_append]
        have hc : Char.ofNat 13 = c := by
          rw [← h7, Char.ofNat_toNat]
        simp [parseStringBody, ihf, hc]
        exact hc
      · simp only [List.cons_append, List.nil_append]
        have hhi : hexVal (hexCh (c.toNat / 16)) = some (c.toNat / 16) :=
          hexVal_hexCh _ (by omega)
        have hlo : hexVal (hexCh (c.toNat % 16)) = some (c.toNat % 16) :=
          hexVal_hexCh _ (Nat.mod_lt _ (by omega))
        have hn : ((0 * 16 + 0) * 16 + c.toNat / 16) * 16 + c.toNat % 16 = c.toNat := by
          have := Nat.div_add_mod c.toNat 16
          omega
        simp [parseStringBody, ihf, hhi, hlo]
        show (match hexVal '0', hexVal '0', some (c.toNat / 16), some (c.toNat % 16) with
          | some a, some b, some c2, some d =>
            some (Char.ofNat (((a * 16 + b) * 16 + c2) * 16 + d) :: cs, rest)
          | _, _, _, _ => none) = some (c :: cs, rest)
        rw [show hexVal '0' = some 0 from rfl]
        show some (Char.ofNat (((0 * 16 + 0) * 16 + c.toNat / 16) * 16 + c.toNat % 16) :: cs, rest)
          = some (c :: cs, rest)
        rw [hn, Char.ofNat_toNat]
      · simp only [List.cons_append, List.nil_append]
        simp [parseStringBody, ihf, h1, h2]

/-! ## Parser shape lemmas -/

theorem serJson_ne_nil : ∀ v : Json, serJson v ≠ [] := by
  intro v
  cases v with
  | null => simp [serJson]
  | bool b => cases b <;> simp [serJson]
  | num i =>
    show serInt i ≠ []
    unfold serInt
    split
    · simp
    · exact natDigits_ne_nil _
  | str s => simp [serJson, serStr]
  | arr vs => cases vs <;> simp [serJson]
  | obj ms => cases ms <;> simp [serJson]

theorem serJson_head_not_close :
    ∀ (v : Json) (c : Char) (cs : List Char), serJson v = c :: cs →
      c ≠ ']' ∧ c ≠ '}' := by
  intro v c cs h
  cases v with
  | null => injection h with h1 _; subst h1; exact ⟨by decide, by decide⟩
  | bool b =>
    cases b <;> injection h with h1 _ <;> subst h1 <;> exact ⟨by decide, by decide⟩
  | num i =>
    have hdig : c.isDigit = true ∨ c = '-' := by
      show _ ∨ _
      unfold serJson serInt at h
      split at h
      · right
        cases hn : natDigits i.natAbs with
        | nil => exact absurd hn (natDigits_ne_nil _)
        | cons d ds => injection h with h1 _; exact h1.symm
      · left
        exact natDigits_all_digit _ c (h ▸ List.mem_cons_self c cs)
    rcases hdig with h1 | h1
    · constructor <;> intro h2 <;> rw [h2] at h1 <;> exact absurd h1 (by decide)
    · subst h1; exact ⟨by decide, by decide⟩
  | str s => injection h with h1 _; subst h1; exact ⟨by decide, by decide⟩
  | arr vs =>
    cases vs <;> injection h with h1 _ <;> subst h1 <;> exact ⟨by decide, by decide⟩
  | obj ms =>
    cases ms <;> injection h with h1 _ <;> subst h1 <;> exact ⟨by decide, by decide⟩

theorem parseValue_digit (fuel : Nat) (d : Char) (x : List Char)
    (hd : d.isDigit = true) :
    parseValue (fuel + 1) (d :: x)
      = some (.num (digitsVal ((d :: x).takeWhile Char.isDigit)),
              (d :: x).drop ((d :: x).takeWhile Char.isDigit).length) := by
  unfold parseValue
  split <;> simp_all

theorem parseValue_bracket (fuel : Nat) (c0 : Char) (x : List Char)
    (hc : c0 ≠ ']') :
    parseValue (fuel + 1) ('[' :: c0 :: x)
      = (parseElems fuel (c0 :: x)).map (fun p => (Json.arr p.1, p.2)) := by
  unfold parseValue
  split <;> simp_all
  rename_i hq hbr hbrace hminus heq
  exact absurd heq.1.symm hbr

theorem parseValue_brace (fuel : Nat) (c0 : Char) (x : List Char)
    (hc : c0 ≠ '}') :
    parseValue (fuel + 1) ('{' :: c0 :: x)
      = (parseMembers fuel (c0 :: x)).map (fun p => (Json.obj p.1, p.2)) := by
  unfold parseValue
  split <;> simp_all
  rename_i hq hbr hbrace hminus heq
  exact absurd heq.1.symm hbrace

theorem takeWhile_digits (n : Nat) (rest : List Char) (h : noDigitHead rest) :
    (natDigits n ++ rest).takeWhile Char.isDigit = natDigits n ∧
    (natDigits n ++ rest).drop (natDigits n).length = rest := by
  constructor
  · rw [takeWhile_all_append _ _ _ (natDigits_all_digit n)]
    cases rest with
    | nil => simp
    | cons r rs =>
      rw [List.takeWhile_cons_of_neg]
      · simp
      · show ¬Char.isDigit r = true
        unfold noDigitHead at h
        rw [h]
        simp
  · exact List.drop_left _ _

theorem parseValue_minus (fuel : Nat) (x : List Char) :
    parseValue (fuel + 1) ('-' :: x)
      = (if (x.takeWhile Char.isDigit).isEmpty then none
         else some (.num (-(digitsVal (x.takeWhile Char.isDigit) : Int)),
                    x.drop (x.takeWhile Char.isDigit).length)) := rfl

theorem parseValue_serInt (i : Int) (fuel : Nat) (rest : List Char)
    (h : noDigitHead rest) :
    parseValue (fuel + 1) (serInt i ++ rest) = some (.num i, rest) := by
  unfold serInt
  split
  · next hneg =>
    show parseValue (fuel + 1) ('-' :: (natDigits i.natAbs ++ rest)) = _
    rw [parseValue_minus]
    obtain ⟨htw, hdr⟩ := takeWhile_digits i.natAbs rest h
    rw [htw, hdr]
    rw [if_neg (by simp [natDigits_ne_nil i.natAbs])]
    rw [digitsVal_natDigits]
    have : -((i.natAbs : Int)) = i := by omega
    rw [this]
  · next hpos =>
    cases hnd : natDigits i.toNat with
    | nil => exact absurd hnd (natDigits_ne_nil _)
    | cons d ds =>
      have hdig : d.isDigit = true :=
        natDigits_all_digit _ d (hnd ▸ List.mem_cons_self d ds)
      show parseValue (fuel + 1) ((d :: ds) ++ rest) = _
      rw [List.cons_append, parseValue_digit fuel d (ds ++ rest) hdig]
      rw [show d :: (ds ++ rest) = natDigits i.toNat ++ rest by rw [hnd, List.cons_append]]
      obtain ⟨htw, hdr⟩ := takeWhile_digits i.toNat rest h
      rw [htw, hdr, digitsVal_natDigits]
      have : ((i.toNat : Int)) = i := by omega
      rw [this]

/-! ## Fuel bounds -/

theorem sizeOf_pair_expand (p : String × Json) :
    sizeOf p = 1 + sizeOf p.1 + sizeOf p.2 := rfl

mutual

theorem jfuel_le_serLen (v : Json) : jfuel v ≤ (serJson v).length := by
  cases v with
  | null => simp [jfuel, serJson]
  | bool b => cases b <;> simp [jfuel, serJson]
  | num i =>
    have h := List.length_pos.mpr (serJson_ne_nil (.num i))
    simp only [jfuel]
    omega
  | str s => simp [jfuel, serJson, serStr]
  | arr vs =>
    cases vs with
    | nil => simp [jfuel, efuelList, serJson]
    | cons v vs =>
      have h1 := jfuel_le_serLen v
      have h2 := efuelList_succ_le_serLen vs
      simp only [jfuel, efuelList, serJson, List.length_cons, List.length_append]
      omega
  | obj ms =>
    cases ms with
    | nil => simp [jfuel, mfuelList, serJson]
    | cons m ms =>
      obtain ⟨k, v⟩ := m
      have h1 := jfuel_le_serLen v
      have h2 := mfuelList_succ_le_serLen ms
      simp only [jfuel, mfuelList, serJson, serMember, serStr,
        List.length_cons, List.length_append]
      omega
termination_by sizeOf v
decreasing_by all_goals (simp_wf; try subst_vars; simp_arith [sizeOf_pair_expand])

theorem efuelList_succ_le_serLen (vs : List Json) :
    efuelList vs + 1 ≤ (serArrTail vs).length := by
  cases vs with
  | nil => simp [efuelList, serArrTail]
  | cons v vs =>
    have h1 := jfuel_le_serLen v
    have h2 := efuelList_succ_le_serLen vs
    simp only [efuelList, serArrTail, List.length_cons, List.length_append]
    omega
termination_by sizeOf vs
decreasing_by all_goals (simp_wf; try subst_vars; simp_arith [sizeOf_pair_expand])

theorem mfuelList_succ_le_serLen (ms : List (String × Json)) :
    mfuelList ms + 1 ≤ (serObjTail ms).length := by
  cases ms with
  | nil => simp [mfuelList, serObjTail]
  | cons n ns =>
    obtain ⟨k, v⟩ := n
    have h1 := jfuel_le_serLen v
    have h2 := mfuelList_succ_le_serLen ns
    simp only [mfuelList, serObjTail, serMember, serStr,
      List.length_cons, List.length_append]
    omega
termination_by sizeOf ms
decreasing_by all_goals (simp_wf; try subst_vars; simp_arith [sizeOf_pair_expand])

end

/-! ## Serialization round trip -/

theorem efuelList_nil : efuelList [] = 0 := by simp [efuelList]

theorem mfuelList_nil : mfuelList ([] : List (String × Json)) = 0 := by
  simp [mfuelList]

theorem mfuelList_cons (n : String × Json) (ns : List (String × Json)) :
    mfuelList (n :: ns) = 1 + jfuel n.2 + mfuelList ns := by
  obtain ⟨k, v⟩ := n
  simp [mfuelList]

mutual

theorem ser_parse_v (v : Json) :
    ∀ (fuel : Nat) (rest : List Char), jfuel v ≤ fuel → noDigitHead rest →
      parseValue fuel (serJson v ++ rest) = some (v, rest) := by
  intro fuel rest hfuel hrest
  cases v with
  | null =>
    simp only [jfuel] at hfuel
    obtain ⟨f, rfl⟩ : ∃ f, fuel = f + 1 := ⟨fuel - 1, by omega⟩
    rfl
  | bool b =>
    simp only [jfuel] at hfuel
    obtain ⟨f, rfl⟩ : ∃ f, fuel = f + 1 := ⟨fuel - 1, by omega⟩
    cases b <;> rfl
  | num i =>
    simp only [jfuel] at hfuel
    obtain ⟨f, rfl⟩ : ∃ f, fuel = f + 1 := ⟨fuel - 1, by omega⟩
    exact parseValue_serInt i f rest hrest
  | str s =>
    simp only [jfuel] at hfuel
    obtain ⟨f, rfl⟩ : ∃ f, fuel = f + 1 := ⟨fuel - 1, by omega⟩
    obtain ⟨d⟩ := s
    have hshape : serJson (.str (String.mk d)) ++ rest = '"' :: (escList d ++ '"' :: rest) := by
      show ('"' :: (escList d ++ ['"'])) ++ rest = _
      simp
    rw [hshape]
    show (parseStringBody ((escList d ++ '"' :: rest).length + 1)
        (escList d ++ '"' :: rest)).map (fun p => (Json.str (String.mk p.1), p.2))
      = some (.str (String.mk d), rest)
    rw [parseStringBody_escList d _ rest (by
      have := escList_length_ge d
      simp only [List.length_append, List.length_cons]
      omega)]
    rfl
  | arr vs =>
    cases vs with
    | nil =>
      simp only [jfuel] at hfuel
      obtain ⟨f, rfl⟩ : ∃ f, fuel = f + 1 := ⟨fuel - 1, by omega⟩
      rfl
    | cons w ws =>
      simp only [jfuel] at hfuel
      obtain ⟨f, rfl⟩ : ∃ f, fuel = f + 1 := ⟨fuel - 1, by omega⟩
      cases hhd : serJson w with
      | nil => exact absurd hhd (serJson_ne_nil w)
      | cons c cs =>
        have hcne := serJson_head_not_close w c cs hhd
        have hshape : serJson (.arr (w :: ws)) ++ rest
            = '[' :: c :: (cs ++ (serArrTail ws ++ rest)) := by
          show ('[' :: (serJson w ++ serArrTail ws)) ++ rest = _
          rw [hhd]
          simp
        rw [hshape, parseValue_bracket f c _ hcne.1]
        have helems := ser_parse_elems w ws f rest (by omega)
        rw [hhd] at helems
        rw [show c :: (cs ++ (serArrTail ws ++ rest))
            = (c :: cs) ++ (serArrTail ws ++ rest) from rfl, helems]
        rfl
  | obj ms =>
    cases ms with
    | nil =>
      simp only [jfuel] at hfuel
      obtain ⟨f, rfl⟩ : ∃ f, fuel = f + 1 := ⟨fuel - 1, by omega⟩
      rfl
    | cons m ms =>
      simp only [jfuel] at hfuel
      obtain ⟨f, rfl⟩ : ∃ f, fuel = f + 1 := ⟨fuel - 1, by omega⟩
      have hmem := ser_parse_members m ms f rest (by omega)
      obtain ⟨k, w⟩ := m
      have hshape : serJson (.obj ((k, w) :: ms)) ++ rest
          = '{' :: '"' :: ((escList k.data ++ '"' :: (':' :: serJson w))
              ++ (serObjTail ms ++ rest)) := by
        show ('{' :: ((('"' :: (escList k.data ++ ['"'])) ++ (':' :: serJson w))
            ++ serObjTail ms)) ++ rest = _
        simp
      rw [hshape, parseValue_brace f '"' _ (by decide)]
      have hshape2 : serMember (k, w) ++ (serObjTail ms ++ rest)
          = '"' :: ((escList k.data ++ '"' :: (':' :: serJson w))
              ++ (serObjTail ms ++ rest)) := by
        show (('"' :: (escList k.data ++ ['"'])) ++ (':' :: serJson w))
            ++ (serObjTail ms ++ rest) = _
        simp
      rw [hshape2] at hmem
      rw [hmem]
      rfl
termination_by sizeOf v
decreasing_by all_goals (simp_wf; try subst_vars; simp_arith [sizeOf_pair_expand])

theorem ser_parse_elems (v : Json) (vs : List Json) :
    ∀ (fuel : Nat) (rest : List Char), efuelList (v :: vs) ≤ fuel →
      parseElems fuel (serJson v ++ (serArrTail vs ++ rest)) = some (v :: vs, rest) := by
  intro fuel rest hfuel
  cases vs with
  | nil =>
    simp only [efuelList] at hfuel
    obtain ⟨f, rfl⟩ : ∃ f, fuel = f + 1 := ⟨fuel - 1, by omega⟩
    have hpv := ser_parse_v v f (']' :: rest) (by omega)
      (by show Char.isDigit ']' = false; rfl)
    show parseElems (f + 1) (serJson v ++ (']' :: rest)) = some ([v], rest)
    simp only [parseElems, hpv]
  | cons w ws =>
    simp only [efuelList] at hfuel
    obtain ⟨f, rfl⟩ : ∃ f, fuel = f + 1 := ⟨fuel - 1, by omega⟩
    have hpv := ser_parse_v v f (',' :: (serJson w ++ (serArrTail ws ++ rest)))
      (by omega) (by show Char.isDigit ',' = false; rfl)
    have hrec := ser_parse_elems w ws f rest (by simp only [efuelList]; omega)
    have hshape : serJson v ++ (serArrTail (w :: ws) ++ rest)
        = serJson v ++ (',' :: (serJson w ++ (serArrTail ws ++ rest))) := by
      show serJson v ++ ((',' :: (serJson w ++ serArrTail ws)) ++ rest) = _
      simp
    rw [hshape]
    simp only [parseElems, hpv, hrec]
    rfl
termination_by sizeOf v + sizeOf vs
decreasing_by all_goals (simp_wf; try subst_vars; simp_arith [sizeOf_pair_expand])

theorem ser_parse_members (m : String × Json) (ms : List (String × Json)) :
    ∀ (fuel : Nat) (rest : List Char), mfuelList (m :: ms) ≤ fuel →
      parseMembers fuel (serMember m ++ (serObjTail ms ++ rest))
        = some (m :: ms, rest) := by
  intro fuel rest hfuel
  cases ms with
  | nil =>
    rw [mfuelList_cons, mfuelList_nil] at hfuel
    obtain ⟨f, rfl⟩ : ∃ f, fuel = f + 1 := ⟨fuel - 1, by omega⟩
    have hpv := ser_parse_v m.2 f ('}' :: rest) (by omega)
      (by show Char.isDigit '}' = false; rfl)
    obtain ⟨k, v⟩ := m
    obtain ⟨kd⟩ := k
    have hshape : serMember (String.mk kd, v) ++ (serObjTail [] ++ rest)
        = '"' :: (escList kd ++ '"' :: (':' :: (serJson v ++ ('}' :: rest)))) := by
      show (('"' :: (escList kd ++ ['"'])) ++ (':' :: serJson v)) ++ ('}' :: rest) = _
      simp
    rw [hshape]
    have hstr := parseStringBody_escList kd
      ((escList kd ++ '"' :: (':' :: (serJson v ++ ('}' :: rest)))).length + 1)
      (':' :: (serJson v ++ ('}' :: rest)))
      (by
        have := escList_length_ge kd
        simp only [List.length_append, List.length_cons]
        omega)
    simp only [parseMembers, hstr, hpv]
    rfl
  | cons n ns =>
    rw [mfuelList_cons, mfuelList_cons] at hfuel
    obtain ⟨f, rfl⟩ : ∃ f, fuel = f + 1 := ⟨fuel - 1, by omega⟩
    have hpv := ser_parse_v m.2 f
      (',' :: (serMember n ++ (serObjTail ns ++ rest))) (by omega)
      (by show Char.isDigit ',' = false; rfl)
    have hrec := ser_parse_members n ns f rest (by rw [mfuelList_cons]; omega)
    obtain ⟨k, v⟩ := m
    obtain ⟨kd⟩ := k
    have hshape : serMember (String.mk kd, v) ++ (serObjTail (n :: ns) ++ rest)
        = '"' :: (escList kd ++ '"' :: (':' :: (serJson v
            ++ (',' :: (serMember n ++ (serObjTail ns ++ rest)))))) := by
      show (('"' :: (escList kd ++ ['"'])) ++ (':' :: serJson v))
          ++ ((',' :: (serMember n ++ serObjTail ns)) ++ rest) = _
      simp
    rw [hshape]
    have hstr := parseStringBody_escList kd
      ((escList kd ++ '"' :: (':' :: (serJson v
          ++ (',' :: (serMember n ++ (serObjTail ns ++ rest)))))).length + 1)
      (':' :: (serJson v ++ (',' :: (serMember n ++ (serObjTail ns ++ rest)))))
      (by
        have := escList_length_ge kd
        simp only [List.length_append, List.length_cons]
        omega)
    simp only [parseMembers, hstr, hpv, hrec]
    rfl
termination_by sizeOf m + sizeOf ms
decreasing_by all_goals (simp_wf; try subst_vars; simp_arith [sizeOf_pair_expand])

end

/-- `JSON.parse` inverts `JSON.stringify` on the modeled value space. -/
theorem parseJson_serJson (v : Json) : parseJson (serJson v) = some v := by
  have h := ser_parse_v v ((serJson v).length + 1) []
    (by have := jfuel_le_serLen v; omega) trivial
  rw [List.append_nil] at h
  simp only [parseJson, h]

/-! ## Framer lemmas -/

theorem takeWhile_all (p : Char → Bool) :
    ∀ (xs : List Char), (∀ x ∈ xs, p x = true) → List.takeWhile p xs = xs := by
  intro xs h
  induction xs with
  | nil => rfl
  | cons x xs ih =>
    rw [List.takeWhile_cons_of_pos (h x (List.mem_cons_self x xs))]
    rw [ih (fun y hy => h y (List.mem_cons_of_mem x hy))]

theorem utf8LenL_ascii (s : List Char) (h : ∀ c ∈ s, c.toNat < 128) :
    utf8LenL s = s.length := by
  induction s with
  | nil => rfl
  | cons c cs ih =>
    show utf8W c + utf8LenL cs = cs.length + 1
    rw [ih (fun y hy => h y (List.mem_cons_of_mem c hy))]
    unfold utf8W
    rw [if_pos (h c (List.mem_cons_self c cs))]
    omega

theorem matchHeaderAt_not_C (l : List Char)
    (h : ∀ c cs, l = c :: cs → c ≠ 'C') : matchHeaderAt l = none := by
  cases l with
  | nil => rfl
  | cons c cs =>
    have hc : c ≠ 'C' := h c cs rfl
    unfold matchHeaderAt
    rw [if_neg]
    intro hstart
    rw [show clPrefix = 'C' :: "ontent-Length: ".data from rfl] at hstart
    exact hc (lcStartsWith_head 'C' c _ _ hstart)

theorem findHeader_none (l : List Char)
    (h : ∀ k, matchHeaderAt (l.drop k) = none) : findHeader l = none := by
  induction l with
  | nil => rfl
  | cons c cs ih =>
    unfold findHeader
    rw [show matchHeaderAt (c :: cs) = none from h 0]
    exact ih (fun k => h (k + 1))

theorem findHeader_cons_some (l : List Char) (r : Nat × Nat) (hne : l ≠ [])
    (h : matchHeaderAt l = some r) : findHeader l = some r := by
  cases l with
  | nil => exact absurd rfl hne
  | cons c cs =>
    unfold findHeader
    rw [h]

theorem matchHeaderAt_full (ds p : List Char) (hne : ds ≠ [])
    (hdig : ∀ c ∈ ds, c.isDigit = true) :
    matchHeaderAt (clPrefix ++ (ds ++ (crlf2 ++ p)))
      = some (20 + ds.length, digitsVal ds) := by
  have hemp : ds.isEmpty = false := by
    cases ds with
    | nil => exact absurd rfl hne
    | cons a l => rfl
  have htw : (ds ++ (crlf2 ++ p)).takeWhile Char.isDigit = ds := by
    rw [takeWhile_all_append _ _ _ hdig]
    rw [show crlf2 ++ p = '\r' :: ('\n' :: '\r' :: '\n' :: p) from rfl]
    rw [List.takeWhile_cons_of_neg (by decide)]
    simp
  unfold matchHeaderAt
  rw [if_pos (lcStartsWith_refl_append _ _)]
  simp only [List.drop_left, htw, hemp]
  rw [if_neg (by simp), if_pos (lcStartsWith_refl_append crlf2 p)]
  have hlen : clPrefix.length + ds.length + crlf2.length = 20 + ds.length := by
    rw [show clPrefix.length = 16 from rfl, show crlf2.length = 4 from rfl]
    omega
  rw [hlen]

theorem matchHeaderAt_incomplete (ds t u : List Char) (hne : ds ≠ [])
    (hdig : ∀ c ∈ ds, c.isDigit = true) (hu : u ≠ [])
    (heq : t ++ u = clPrefix ++ (ds ++ crlf2)) :
    matchHeaderAt t = none := by
  by_cases h16 : t.length < 16
  · have hnot : ¬ (lcStartsWith clPrefix t = true) := by
      intro habs
      have hlen := lcStartsWith_le_length _ _ habs
      rw [show clPrefix.length = 16 from rfl] at hlen
      omega
    unfold matchHeaderAt
    rw [if_neg hnot]
  · have hpc : clPrefix <+: t := by
      have hx1 : clPrefix <+: t ++ u := by
        rw [heq]
        exact List.prefix_append _ _
      have hx2 : t <+: t ++ u := List.prefix_append _ _
      exact List.prefix_of_prefix_length_le hx1 hx2
        (by rw [show clPrefix.length = 16 from rfl]; omega)
    obtain ⟨t2, rfl⟩ := hpc
    have heq2 : t2 ++ u = ds ++ crlf2 := by
      rw [List.append_assoc] at heq
      exact List.append_cancel_left heq
    by_cases hlen2 : t2.length ≤ ds.length
    · have hpd : t2 <+: ds := by
        have hx1 : t2 <+: ds ++ crlf2 := by
          rw [← heq2]
          exact List.prefix_append _ _
        have hx2 : ds <+: ds ++ crlf2 := List.prefix_append _ _
        exact List.prefix_of_prefix_length_le hx1 hx2 hlen2
      have hdig2 : ∀ c ∈ t2, c.isDigit = true := fun c hc => hdig c (hpd.subset hc)
      have htw : t2.takeWhile Char.isDigit = t2 := takeWhile_all _ _ hdig2
      cases ht2 : t2 with
      | nil =>
        subst ht2
        rw [List.append_nil]
        decide
      | cons a l =>
        have hemp : t2.isEmpty = false := by rw [ht2]; rfl
        rw [← ht2]
        unfold matchHeaderAt
        rw [if_pos (lcStartsWith_refl_append _ _)]
        simp only [List.drop_left, htw, hemp]
        rw [if_neg (by simp), if_neg]
        rw [List.drop_length]
        decide
    · have hpd : ds <+: t2 := by
        have hx1 : ds <+: ds ++ crlf2 := List.prefix_append _ _
        have hx2 : t2 <+: ds ++ crlf2 := by
          rw [← heq2]
          exact List.prefix_append _ _
        exact List.prefix_of_prefix_length_le hx1 hx2 (by omega)
      obtain ⟨w, rfl⟩ := hpd
      have heq3 : w ++ u = crlf2 := by
        rw [List.append_assoc] at heq2
        exact List.append_cancel_left heq2
      cases hw : w with
      | nil =>
        subst hw
        simp at hlen2
      | cons w0 w' =>
        subst hw
        have hw0 : w0 = '\r' := by
          rw [show crlf2 = '\r' :: ('\n' :: '\r' :: '\n' :: []) from rfl] at heq3
          exact (List.cons.injEq _ _ _ _ ▸ heq3).1
        have htw : (ds ++ (w0 :: w')).takeWhile Char.isDigit = ds := by
          rw [takeWhile_all_append _ _ _ hdig]
          rw [List.takeWhile_cons_of_neg (by rw [hw0]; decide)]
          simp
        have hemp : ds.isEmpty = false := by
          cases ds with
          | nil => exact absurd rfl hne
          | cons a l => rfl
        have hlcw : ¬ (lcStartsWith crlf2 (w0 :: w') = true) := by
          intro habs
          have h1 := lcStartsWith_le_length _ _ habs
          have h2 : (w0 :: w').length + u.length = crlf2.length := by
            rw [← heq3]
            simp
            omega
          have h3 : 0 < u.length := List.length_pos.mpr hu
          omega
        unfold matchHeaderAt
        rw [if_pos (lcStartsWith_refl_append _ _)]
        simp only [List.drop_left, htw, hemp]
        rw [if_neg (by simp), if_neg hlcw]

theorem header_tail_no_C (ds : List Char) (hdig : ∀ c ∈ ds, c.isDigit = true) :
    'C' ∉ "ontent-Length: ".data ++ (ds ++ crlf2) := by
  intro hc
  rcases List.mem_append.mp hc with h1 | h2
  · exact absurd h1 (by decide)
  · rcases List.mem_append.mp h2 with h3 | h4
    · exact absurd (hdig _ h3) (by decide)
    · exact absurd h4 (by decide)

theorem findHeader_incomplete (ds t u : List Char) (hne : ds ≠ [])
    (hdig : ∀ c ∈ ds, c.isDigit = true) (hu : u ≠ [])
    (heq : t ++ u = clPrefix ++ (ds ++ crlf2)) :
    findHeader t = none := by
  apply findHeader_none
  intro k
  cases k with
  | zero => exact matchHeaderAt_incomplete ds t u hne hdig hu heq
  | succ k =>
    apply matchHeaderAt_not_C
    intro c cs hdropk hcC
    subst hcC
    have hmem : 'C' ∈ t.drop (k + 1) := by
      rw [hdropk]
      exact List.mem_cons_self _ _
    have hmem1 : 'C' ∈ t.drop 1 := by
      have hdd : (t.drop 1).drop k = t.drop (k + 1) := by
        rw [List.drop_drop]
        rw [Nat.add_comm]
      rw [← hdd] at hmem
      exact List.drop_subset _ _ hmem
    cases t with
    | nil => simp at hmem1
    | cons t0 ts =>
      have heq1 : ts ++ u = "ontent-Length: ".data ++ (ds ++ crlf2) := by
        rw [show clPrefix ++ (ds ++ crlf2)
            = 'C' :: ("ontent-Length: ".data ++ (ds ++ crlf2)) from rfl] at heq
        exact (List.cons.injEq _ _ _ _ ▸ heq).2
      have : 'C' ∈ ts ++ u := List.mem_append_left _ hmem1
      rw [heq1] at this
      exact header_tail_no_C ds hdig this

theorem processBufferAux_none (fuel : Nat) (st : FrameState)
    (h : findHeader st.buffer = none) : processBufferAux fuel st = st := by
  cases fuel with
  | zero => rfl
  | succ f =>
    unfold processBufferAux
    rw [h]

theorem processBufferAux_waiting (fuel : Nat) (st : FrameState) (hl cl : Nat)
    (h : findHeader st.buffer = some (hl, cl))
    (hshort : st.buffer.length < hl + cl) : processBufferAux fuel st = st := by
  cases fuel with
  | zero => rfl
  | succ f =>
    unfold processBufferAux
    rw [h]
    dsimp only
    rw [if_pos hshort]

theorem frame_decomp (v : Json) :
    frameMessage v = (clPrefix ++ (natDigits (utf8LenL (serJson v)) ++ crlf2))
      ++ serJson v := by
  unfold frameMessage
  simp [List.append_assoc]

theorem header_length (ds : List Char) :
    (clPrefix ++ (ds ++ crlf2)).length = 20 + ds.length := by
  simp [clPrefix, crlf2]
  omega

/-- Feeding any proper prefix of a framed message emits nothing and leaves the
buffer as is: either the header regex does not match yet, or the declared
content length exceeds the buffered payload. -/
theorem processBuffer_incomplete (v : Json) (hascii : serAllAscii v = true)
    (q r : List Char) (acc : List Json) (hr : r ≠ [])
    (heq : q ++ r = frameMessage v) :
    processBuffer { buffer := q, parsed := acc } = { buffer := q, parsed := acc } := by
  have hL : utf8LenL (serJson v) = (serJson v).length := by
    apply utf8LenL_ascii
    intro c hc
    have := List.all_eq_true.mp hascii c hc
    simpa using this
  have hndne : natDigits (utf8LenL (serJson v)) ≠ [] := natDigits_ne_nil _
  have hdig := natDigits_all_digit (utf8LenL (serJson v))
  have hframe := frame_decomp v
  have hhl := header_length (natDigits (utf8LenL (serJson v)))
  by_cases hsplit : q.length < 20 + (natDigits (utf8LenL (serJson v))).length
  · have hqp : q <+: (clPrefix ++ (natDigits (utf8LenL (serJson v)) ++ crlf2)) := by
      have hx1 : q <+: frameMessage v := ⟨r, heq⟩
      have hx2 : (clPrefix ++ (natDigits (utf8LenL (serJson v)) ++ crlf2))
          <+: frameMessage v := by
        rw [hframe]
        exact List.prefix_append _ _
      exact List.prefix_of_prefix_length_le hx1 hx2 (by omega)
    obtain ⟨u, hqu⟩ := hqp
    have hune : u ≠ [] := by
      intro habs
      subst habs
      rw [List.append_nil] at hqu
      subst hqu
      omega
    show processBufferAux q.length { buffer := q, parsed := acc } = _
    exact processBufferAux_none _ _ (findHeader_incomplete _ q u hndne hdig hune hqu)
  · have hhp : (clPrefix ++ (natDigits (utf8LenL (serJson v)) ++ crlf2)) <+: q := by
      have hx1 : (clPrefix ++ (natDigits (utf8LenL (serJson v)) ++ crlf2))
          <+: frameMessage v := by
        rw [hframe]
        exact List.prefix_append _ _
      have hx2 : q <+: frameMessage v := ⟨r, heq⟩
      exact List.prefix_of_prefix_length_le hx1 hx2 (by omega)
    obtain ⟨t, hqt⟩ := hhp
    have htr : t ++ r = serJson v := by
      rw [← hqt, List.append_assoc] at heq
      rw [hframe] at heq
      exact List.append_cancel_left heq
    have htlen : t.length < (serJson v).length := by
      have : t.length + r.length = (serJson v).length := by
        rw [← htr]
        simp
      have : 0 < r.length := List.length_pos.mpr hr
      omega
    have hFH : findHeader q
        = some (20 + (natDigits (utf8LenL (serJson v))).length, utf8LenL (serJson v)) := by
      apply findHeader_cons_some
      · intro habs
        rw [habs] at hqt
        simp at hqt
        exact absurd hqt.1 (by decide)
      · rw [← hqt, List.append_assoc, List.append_assoc]
        rw [show crlf2 ++ t = crlf2 ++ t from rfl]
        have := matchHeaderAt_full (natDigits (utf8LenL (serJson v))) t hndne hdig
        rw [digitsVal_natDigits] at this
        simpa [List.append_assoc] using this
    apply processBufferAux_waiting _ _ _ _ hFH
    show q.length < _
    have hqlen : q.length
        = 20 + (natDigits (utf8LenL (serJson v))).length + t.length := by
      rw [← hqt]
      simp [clPrefix, crlf2]
      omega
    omega

/-- Feeding the complete framed message emits exactly the original payload and
drains the buffer. -/
theorem processBuffer_full (v : Json) (hascii : serAllAscii v = true)
    (acc : List Json) :
    processBuffer { buffer := frameMessage v, parsed := acc }
      = { buffer := [], parsed := acc ++ [v] } := by
  have hL : utf8LenL (serJson v) = (serJson v).length := by
    apply utf8LenL_ascii
    intro c hc
    have := List.all_eq_true.mp hascii c hc
    simpa using this
  have hndne : natDigits (utf8LenL (serJson v)) ≠ [] := natDigits_ne_nil _
  have hdig := natDigits_all_digit (utf8LenL (serJson v))
  have hframe := frame_decomp v
  have hFH : findHeader (frameMessage v)
      = some (20 + (natDigits (utf8LenL (serJson v))).length, utf8LenL (serJson v)) := by
    apply findHeader_cons_some
    · intro habs
      rw [habs] at hframe
      have := congrArg List.length hframe
      simp [clPrefix] at this
    · rw [hframe]
      have := matchHeaderAt_full (natDigits (utf8LenL (serJson v))) (serJson v)
        hndne hdig
      rw [digitsVal_natDigits] at this
      simpa [List.append_assoc] using this
  have hflen : (frameMessage v).length
      = 20 + (natDigits (utf8LenL (serJson v))).length + (serJson v).length := by
    rw [hframe]
    simp [clPrefix, crlf2]
    omega
  have hfpos : 0 < (frameMessage v).length := by omega
  obtain ⟨f, hf⟩ : ∃ f, (frameMessage v).length = f + 1 :=
    ⟨(frameMessage v).length - 1, by omega⟩
  show processBufferAux (frameMessage v).length _ = _
  rw [hf]
  unfold processBufferAux
  rw [hFH]
  dsimp only
  rw [if_neg (by rw [hL] at hflen ⊢; omega)]
  have hdropped : (frameMessage v).drop (20 + (natDigits (utf8LenL (serJson v))).length)
      = serJson v := by
    rw [hframe]
    exact List.drop_left' (header_length _)
  have hmsg : ((frameMessage v).drop
      (20 + (natDigits (utf8LenL (serJson v))).length)).take (utf8LenL (serJson v))
      = serJson v := by
    rw [hdropped, hL, List.take_length]
  have hrest : (frameMessage v).drop
      (20 + (natDigits (utf8LenL (serJson v))).length + utf8LenL (serJson v)) = [] := by
    have : 20 + (natDigits (utf8LenL (serJson v))).length + utf8LenL (serJson v)
        = (frameMessage v).length := by omega
    rw [this, List.drop_length]
  rw [hmsg, hrest, parseJson_serJson]
  exact processBufferAux_none _ _ rfl

theorem feedChunk_stage (v : Json) (hascii : serAllAscii v = true)
    (q c rest : List Char) (h : (q ++ c) ++ rest = frameMessage v) :
    feedChunk (frameStage v q) c = frameStage v (q ++ c) := by
  by_cases hqf : q = frameMessage v
  · have hlen := congrArg List.length h
    rw [hqf] at hlen
    simp only [List.length_append] at hlen
    have hc0 : c = [] := List.length_eq_zero.mp (by omega)
    subst hc0
    rw [List.append_nil]
    unfold frameStage
    rw [if_pos hqf]
    rfl
  · unfold frameStage
    rw [if_neg hqf]
    by_cases hqc : q ++ c = frameMessage v
    · rw [if_pos hqc]
      show processBuffer { buffer := q ++ c, parsed := [] } = _
      rw [hqc]
      simpa using processBuffer_full v hascii []
    · rw [if_neg hqc]
      show processBuffer { buffer := q ++ c, parsed := [] } = _
      apply processBuffer_incomplete v hascii (q ++ c) rest [] _ h
      intro habs
      rw [habs, List.append_nil] at h
      exact hqc h

theorem runFeed_stage (v : Json) (hascii : serAllAscii v = true) :
    ∀ (chunks : List (List Char)) (q : List Char),
      q ++ chunks.flatten = frameMessage v →
      runFeed (frameStage v q) chunks = { buffer := [], parsed := [v] } := by
  intro chunks
  induction chunks with
  | nil =>
    intro q hq
    rw [List.flatten_nil, List.append_nil] at hq
    show frameStage v q = _
    unfold frameStage
    rw [if_pos hq]
  | cons c cs ih =>
    intro q hq
    rw [List.flatten_cons] at hq
    show runFeed (feedChunk (frameStage v q) c) cs = _
    rw [feedChunk_stage v hascii q c cs.flatten (by rw [List.append_assoc]; exact hq)]
    exact ih (q ++ c) (by rw [List.append_assoc]; exact hq)

/-- C2 (amended): for every payload whose JSON serialization is pure ASCII —
so that `Buffer.byteLength` agrees with the JavaScript string length the
framer compares it against — framing the payload with `sendMessage`'s
`Content-Length` header and feeding the framed text to `processBuffer` in
arbitrary chunks emits exactly one parsed message, equal to the original
payload, and leaves the buffer empty. -/
theorem c2_framing_round_trip_amended (v : Json) (hascii : serAllAscii v = true)
    (chunks : List (List Char)) (hjoin : chunks.flatten = frameMessage v) :
    runFeed initFS chunks = { buffer := [], parsed := [v] } := by
  have h0 : frameStage v [] = initFS := by
    unfold frameStage
    rw [if_neg]
    · rfl
    · intro habs
      have hl2 := congrArg List.length habs
      rw [frame_decomp v] at hl2
      simp only [List.length_append, List.length_nil] at hl2
      have h16 : clPrefix.length = 16 := rfl
      have h4 : crlf2.length = 4 := rfl
      omega
  rw [← h0]
  exact runFeed_stage v hascii chunks [] (by rw [List.nil_append]; exact hjoin)

/-- Against C2 as stated: a payload whose serialization contains a non-ASCII
character (here `"é"`, U+00E9). `Content-Length` counts UTF-8 bytes (4) but
the framer compares it with the buffered UTF-16 length (3), so feeding the
complete framed message emits nothing at all — the round trip fails. -/
theorem c2_counterexample_non_ascii_never_emits :
    (runFeed initFS [frameMessage (Json.str (String.mk [Char.ofNat 233]))]).parsed
        = []
      ∧ serAllAscii (Json.str (String.mk [Char.ofNat 233])) = false :=
  ⟨rfl, by decide⟩

/-- Witness for C2: the payload `[1]` framed as `Content-Length: 3\r\n\r\n[1]`,
fed in three uneven chunks, yields exactly the original payload. -/
theorem c2_framing_round_trip_amended_witness :
    serAllAscii (Json.arr [Json.num 1]) = true ∧
    (["Content-Le".data, "ngth: 3\r\n\r".data, "\n[1]".data]
        : List (List Char)).flatten = frameMessage (Json.arr [Json.num 1]) ∧
    runFeed initFS ["Content-Le".data, "ngth: 3\r\n\r".data, "\n[1]".data]
      = { buffer := [], parsed := [Json.arr [Json.num 1]] } :=
  ⟨by decide, by decide,
    c2_framing_round_trip_amended (Json.arr [Json.num 1]) (by decide)
      ["Content-Le".data, "ngth: 3\r\n\r".data, "\n[1]".data] (by decide)⟩
